import Mathlib

/-!
Verification of the Hyperliquid trading-agent runtime (ai-engine).

JavaScript numbers are modelled as exact rationals (ℚ); `Math.round`,
`Number.prototype.toFixed` and `toPrecision` all round half up, which is
exactly Lean's `round` on ℚ.  Fallible operations return `Option`.
Each definition is translated from the JavaScript source file named in its
doc comment.
-/

namespace AiEngine

/-- Trade side as stored in `entry.side` / used by the tracker
(strings buy / sell in the source). -/
inductive Side where
  | buy
  | sell
deriving DecidableEq, Repr

/-- The JS pattern `Math.round(value * factor) / factor` (half-up rounding at a
given scale), shared by `toPrecision` (utils.js 20-23), inline `toFixed`
modelling, and `OrderExecutor._roundPrice`. -/
def scaledRound (value factor : ℚ) : ℚ :=
  (round (value * factor) : ℚ) / factor

/-- utils.js 20-23 `toPrecision(value, decimals)`:
`factor = Math.pow(10, decimals); Math.round(value * factor) / factor`. -/
def toPrecision (value : ℚ) (decimals : ℕ) : ℚ :=
  scaledRound value (10 ^ decimals)

/-- `Number.prototype.toFixed(d)` followed by `parseFloat`: round half up to
`d` decimal places. -/
def toFixed (value : ℚ) (decimals : ℕ) : ℚ :=
  scaledRound value (10 ^ decimals)

/-- utils.js 32-34 `compareFloats(a, b, tolerance)`. -/
def compareFloats (a b tolerance : ℚ) : Bool :=
  decide (|a - b| < tolerance)

/-- The `entry` block of a tracked position (utils.js `openPosition`):
side, size, price, accumulated fee.  Order metadata (feeRate, orderType,
orderId, timestamps) is not read by any computation verified here. -/
structure EntryBlock where
  side : Side
  size : ℚ
  price : ℚ
  fee : ℚ
deriving DecidableEq, Repr

/-- The `exit` block attached on close (utils.js `closePosition`):
size, price, fee.  The closing side and order metadata are bookkeeping
fields not read by `_calculatePnl`. -/
structure ExitBlock where
  size : ℚ
  price : ℚ
  fee : ℚ
deriving DecidableEq, Repr

/-- The PnL record produced by `PositionTracker._calculatePnl`
(utils.js 521-565).  `estimated` models the flag reconcile attaches to
estimated closes (absent on ordinary closes, i.e. false). -/
structure Pnl where
  gross : ℚ
  net : ℚ
  feeEntry : ℚ
  feeExit : ℚ
  feeTotal : ℚ
  percent : ℚ
  entryValue : ℚ
  exitValue : ℚ
  estimated : Bool := false
deriving DecidableEq, Repr

/-- `PositionTracker._calculatePnl` (utils.js 521-565).  The
`Number.isFinite` coercions of the source are identities on ℚ, where every
value is finite.  `positionValue > 0 && Number.isFinite(positionValue)`
becomes `0 < positionValue`. -/
def calculatePnl (entry : EntryBlock) (ex : ExitBlock) : Pnl :=
  let grossPnl :=
    if entry.side = Side.buy then (ex.price - entry.price) * ex.size
    else (entry.price - ex.price) * ex.size
  let totalFees := entry.fee + ex.fee
  let netPnl := grossPnl - totalFees
  let positionValue := entry.price * entry.size
  let pnlPercent := if 0 < positionValue then netPnl / positionValue * 100 else 0
  { gross := grossPnl
    net := netPnl
    feeEntry := entry.fee
    feeExit := ex.fee
    feeTotal := totalFees
    percent := pnlPercent
    entryValue := positionValue
    exitValue := ex.price * ex.size }

/-- Status of a closed-position record (utils.js: the `status` strings
closed, closed_external, closed_opposite_overwrite). -/
inductive PosStatus where
  | closed
  | closedExternal
  | closedOppositeOverwrite
deriving DecidableEq, Repr

/-- A closed-position record: entry block, exit block, computed PnL, status. -/
structure ClosedPosition where
  entry : EntryBlock
  ex : ExitBlock
  pnl : Pnl
  status : PosStatus
deriving DecidableEq, Repr

/-- `PositionTracker.closePosition` (utils.js 403-516) for the position the
caller looked up under the coin (the source returns null when no open
position exists; coin lookup and file persistence are the caller's I/O).
Returns the closed record plus the remaining open entry block if the close
was only for part of the position.  The guards `!size || size <= 0` and
`!price || price <= 0` become `size ≤ 0` / `price ≤ 0` on ℚ. -/
def closePosition (position : EntryBlock) (size price fee : ℚ) :
    Option (ClosedPosition × Option EntryBlock) :=
  if size ≤ 0 then none
  else if price ≤ 0 then none
  else
    let entrySize := position.size
    let closeSize := min size entrySize
    if closeSize < entrySize then
      let closedEntry : EntryBlock :=
        { position with size := closeSize, fee := position.fee * (closeSize / entrySize) }
      let exitBlock : ExitBlock := { size := closeSize, price := price, fee := fee }
      let closedPortion : ClosedPosition :=
        { entry := closedEntry, ex := exitBlock,
          pnl := calculatePnl closedEntry exitBlock, status := PosStatus.closed }
      let remainingSize := entrySize - closeSize
      let remaining : EntryBlock :=
        { position with
          size := remainingSize,
          fee := position.fee * (remainingSize / entrySize) }
      some (closedPortion, some remaining)
    else
      let exitBlock : ExitBlock := { size := closeSize, price := price, fee := fee }
      some ({ entry := position, ex := exitBlock,
              pnl := calculatePnl position exitBlock, status := PosStatus.closed }, none)

/-- A reconcile decision for one locally tracked coin (body of the tracked
coin loop of `PositionTracker.reconcile`, utils.js 865-953). -/
inductive ReconcileAction where
  | removeClosed (closed : ClosedPosition)
  | keep (driftWarning : Bool)
deriving DecidableEq, Repr

/-- The `closed_external` record built inside `PositionTracker.reconcile`
(utils.js 882-936) for a tracked position that is missing from the exchange
or has flipped direction.  `mid` is the truthy `currentMids[coin]` when
present.  The source inlines the PnL computation here (it does not call
`_calculatePnl`) and marks it `estimated`. -/
def reconcileExternalClose (defaultTakerFeeRate : ℚ) (entry : EntryBlock)
    (mid : Option ℚ) : ClosedPosition :=
  let exitPrice : ℚ := match mid with | some m => m | none => 0
  let estimatedExitFee : ℚ :=
    if 0 < exitPrice then entry.size * exitPrice * defaultTakerFeeRate else 0
  let pnl : Pnl :=
    if 0 < exitPrice then
      let gross :=
        if entry.side = Side.buy then (exitPrice - entry.price) * entry.size
        else (entry.price - exitPrice) * entry.size
      let entryValue := entry.price * entry.size
      let totalFees := entry.fee + estimatedExitFee
      { gross := gross, net := gross - totalFees, feeEntry := entry.fee,
        feeExit := estimatedExitFee, feeTotal := totalFees,
        percent := if 0 < entryValue then (gross - totalFees) / entryValue * 100 else 0,
        entryValue := entryValue, exitValue := exitPrice * entry.size, estimated := true }
    else
      { gross := 0, net := -entry.fee, feeEntry := entry.fee, feeExit := 0,
        feeTotal := entry.fee, percent := 0, entryValue := entry.price * entry.size,
        exitValue := 0, estimated := true }
  { entry := entry,
    ex := { size := entry.size, price := exitPrice, fee := estimatedExitFee },
    pnl := pnl, status := PosStatus.closedExternal }

/-- One iteration of the tracked-coin loop of `PositionTracker.reconcile`
(utils.js 865-953).  `exchangeSize` is the signed size of the nonzero
exchange position for the coin, if one exists; `shouldRemove` is
`!exchangePos || direction flipped`. -/
def reconcileOne (defaultTakerFeeRate : ℚ) (localEntry : EntryBlock)
    (exchangeSize : Option ℚ) (mid : Option ℚ) : ReconcileAction :=
  match exchangeSize with
  | none =>
    ReconcileAction.removeClosed (reconcileExternalClose defaultTakerFeeRate localEntry mid)
  | some s =>
    if (localEntry.side = Side.buy ∧ s < 0) ∨ (localEntry.side = Side.sell ∧ 0 < s) then
      ReconcileAction.removeClosed (reconcileExternalClose defaultTakerFeeRate localEntry mid)
    else
      let exchangeSz := |s|
      let drift := |localEntry.size - exchangeSz|
      let driftPercent := if 0 < exchangeSz then drift / exchangeSz * 100 else 0
      ReconcileAction.keep (decide (10 < driftPercent))

/-- Association-list lookup keyed by coin (models JS `Map.get` / object
indexing; the venue reports at most one position per coin). -/
def lookupCoin (entries : List (String × ℚ)) (coin : String) : Option ℚ :=
  (entries.find? (fun p => p.1 == coin)).map (fun p => p.2)

/-- The reconcile decision for one tracked pair, against the nonzero-filtered
exchange map (utils.js 858-860) and the mids. -/
def reconcileAct (defaultTakerFeeRate : ℚ)
    (exchangePositions currentMids : List (String × ℚ))
    (p : String × EntryBlock) : ReconcileAction :=
  reconcileOne defaultTakerFeeRate p.2
    (lookupCoin (exchangePositions.filter (fun q => decide (q.2 ≠ 0))) p.1)
    (lookupCoin currentMids p.1)

/-- Outcome of one `reconcile` call: surviving open positions, newly closed
records, number of drift warnings, and the coins of untracked exchange
positions that were only reported. -/
structure ReconcileResult where
  openAfter : List (String × EntryBlock)
  closedNew : List (String × ClosedPosition)
  driftWarnings : ℕ
  untracked : List String
deriving Repr

/-- `PositionTracker.reconcile` (utils.js 852-970) as a function of the
tracked open positions, the exchange positions (signed sizes) and the
current mids.  The SL/TP recent-fill fallback pass (which runs before the
loop) and file persistence are outside this model; the loop only deletes
stale coins, so the surviving map is a filter of the input. -/
def reconcile (defaultTakerFeeRate : ℚ) (openPositions : List (String × EntryBlock))
    (exchangePositions currentMids : List (String × ℚ)) : ReconcileResult :=
  { openAfter := openPositions.filter (fun p =>
      match reconcileAct defaultTakerFeeRate exchangePositions currentMids p with
      | ReconcileAction.keep _ => true
      | ReconcileAction.removeClosed _ => false),
    closedNew := openPositions.filterMap (fun p =>
      match reconcileAct defaultTakerFeeRate exchangePositions currentMids p with
      | ReconcileAction.removeClosed c => some (p.1, c)
      | ReconcileAction.keep _ => none),
    driftWarnings := (openPositions.filter (fun p =>
      match reconcileAct defaultTakerFeeRate exchangePositions currentMids p with
      | ReconcileAction.keep w => w
      | ReconcileAction.removeClosed _ => false)).length,
    untracked := ((exchangePositions.filter (fun q => decide (q.2 ≠ 0))).filter (fun e =>
      openPositions.all (fun p => !(p.1 == e.1)))).map (fun e => e.1) }

/-- JS `String.prototype.includes(pat)`: some suffix of a drop of `s`
starts with `pat`. -/
def containsSubstr (s pat : String) : Bool :=
  (List.range (s.data.length + 1)).any (fun i => pat.data.isPrefixOf (s.data.drop i))

/-- The retry guard of `retryWithBackoff` (utils.js 89):
`msg.includes('429') || msg.includes('Too Many Requests')`. -/
def isRateLimitMessage (msg : String) : Bool :=
  containsSubstr msg "429" || containsSubstr msg "Too Many Requests"

/-- Observable trace of one `retryWithBackoff` run: final outcome, number of
invocations of the wrapped function, and the sleep durations (ms) taken
between invocations, in order. -/
structure RetryTrace (α : Type) where
  result : Except String α
  invocations : ℕ
  delays : List ℕ
deriving Repr

/-- The attempt loop of `retryWithBackoff` (utils.js 81-103).  `calls i` is
the outcome of the i-th invocation of `fn`; `remaining` is
`maxRetries - attempt`, so `remaining = 0` means the current attempt is the
final permitted one and every error is rethrown; otherwise a rate-limited
error sleeps `baseDelay * 2 ^ attempt` and continues, and any other error
is rethrown at once. -/
def retryGo {α : Type} (calls : ℕ → Except String α) (baseDelay : ℕ) :
    (attempt : ℕ) → (remaining : ℕ) → RetryTrace α
  | attempt, 0 =>
    match calls attempt with
    | Except.ok a => { result := Except.ok a, invocations := 1, delays := [] }
    | Except.error e => { result := Except.error e, invocations := 1, delays := [] }
  | attempt, remaining + 1 =>
    match calls attempt with
    | Except.ok a => { result := Except.ok a, invocations := 1, delays := [] }
    | Except.error e =>
      if isRateLimitMessage e then
        let t := retryGo calls baseDelay (attempt + 1) remaining
        { result := t.result, invocations := t.invocations + 1,
          delays := baseDelay * 2 ^ attempt :: t.delays }
      else { result := Except.error e, invocations := 1, delays := [] }

/-- `retryWithBackoff(fn, maxRetries, baseDelay)` (utils.js 81-103): run the
attempt loop from attempt 0 with `maxRetries` retries still permitted. -/
def retryWithBackoff {α : Type} (calls : ℕ → Except String α)
    (maxRetries baseDelay : ℕ) : RetryTrace α :=
  retryGo calls baseDelay 0 maxRetries

/-- JS `String.prototype.toLowerCase` on the ASCII order types used here,
written over the character list so it evaluates in the kernel. -/
def jsToLower (s : String) : String :=
  String.mk (s.data.map Char.toLower)

/-- JS `String.prototype.trim`: strip whitespace from both ends. -/
def jsTrim (s : String) : String :=
  String.mk (((s.data.dropWhile (fun c => c.isWhitespace)).reverse.dropWhile
    (fun c => c.isWhitespace)).reverse)

/-- The fee record returned by `OrderExecutor.calculateTradeFee`
(`feeType` is the maker flag: the source returns the strings maker /
taker). -/
structure TradeFee where
  fee : ℚ
  feeRate : ℚ
  maker : Bool
deriving DecidableEq, Repr

/-- `OrderExecutor.calculateTradeFee` (part_004 273-289): only an order type
that trims and lowercases to alo is guaranteed maker; everything else is
charged at the taker rate; `fee = size * price * feeRate`.  The source
guards `String(orderType || '')`; a non-string order type is outside this
model. -/
def calculateTradeFee (makerFeeRate takerFeeRate : ℚ) (size price : ℚ)
    (orderType : String) : TradeFee :=
  let value := size * price
  let normalizedType := jsToLower (jsTrim orderType)
  let isMakerGuaranteed := normalizedType == "alo"
  let feeRate := if isMakerGuaranteed then makerFeeRate else takerFeeRate
  { fee := value * feeRate, feeRate := feeRate, maker := isMakerGuaranteed }

/-- A price-trigger condition object (`{ above | below | crosses }`,
part_002 registerPriceTrigger); a field is absent when undefined/null. -/
structure PriceCondition where
  above : Option ℚ
  below : Option ℚ
  crosses : Option ℚ
deriving DecidableEq, Repr

/-- The `shouldTrigger` computation of `BaseAgent._evaluatePriceTriggers`
(part_002 1606-1622): `above` fires when the price is strictly above the
threshold and there is no previous price or the previous price was at or
below it; `below` symmetrically; `crosses` requires a previous price and
fires on a crossing in either direction. -/
def priceShouldTrigger (condition : PriceCondition) (lastPrice : Option ℚ)
    (currentPrice : ℚ) : Bool :=
  let aboveHit : Bool :=
    match condition.above with
    | none => false
    | some a =>
      decide (a < currentPrice) &&
        (match lastPrice with | none => true | some lp => decide (lp ≤ a))
  let belowHit : Bool :=
    match condition.below with
    | none => false
    | some b =>
      decide (currentPrice < b) &&
        (match lastPrice with | none => true | some lp => decide (b ≤ lp))
  let crossesHit : Bool :=
    match condition.crosses, lastPrice with
    | some c, some lp =>
      decide (lp < c ∧ c ≤ currentPrice) || decide (c < lp ∧ currentPrice ≤ c)
    | _, _ => false
  aboveHit || belowHit || crossesHit

/-- One loop iteration of `_evaluatePriceTriggers` for one trigger
(part_002 1599-1649): a zero price is skipped without touching the stored
`lastPrice`; otherwise the trigger fires per `priceShouldTrigger` and
`lastPrice` is set to the current price. -/
def priceTriggerStep (condition : PriceCondition) (lastPrice : Option ℚ)
    (currentPrice : ℚ) : Bool × Option ℚ :=
  if currentPrice = 0 then (false, lastPrice)
  else (priceShouldTrigger condition lastPrice currentPrice, some currentPrice)

/-- Iterated evaluation of one price trigger over successive observed
prices, starting from the stored `lastPrice` (null at registration,
part_002 827). -/
def priceTriggerRun (condition : PriceCondition) :
    Option ℚ → List ℚ → List Bool
  | _, [] => []
  | lastPrice, p :: ps =>
    let step := priceTriggerStep condition lastPrice p
    step.1 :: priceTriggerRun condition step.2 ps

/-- Status reported for one technical/composite trigger evaluation
(part_002 1885-1933): fire on a false-to-true transition, report
still_active while the condition holds, not_met otherwise. -/
inductive TriggerReport where
  | fired
  | stillActive
  | notMet
deriving DecidableEq, Repr

/-- The condition shapes supported for technical triggers
(part_002 1784-1880). -/
inductive TechCondition where
  | above (threshold : ℚ)
  | below (threshold : ℚ)
  | between (lo hi : ℚ)
  | outside (lo hi : ℚ)
  | crossesAbove (threshold : ℚ)
  | crossesBelow (threshold : ℚ)
  | crossover
  | crossunder
deriving DecidableEq, Repr

/-- The indicator data consumed by one evaluation, as returned by the
indicator service (an external collaborator): a single current value for
threshold/range conditions, the last two samples for crosses_above/below,
and the last two samples of the fast and slow series for
crossover/crossunder.  `checkField` extraction is already applied. -/
inductive TechObservation where
  | value (checkValue : ℚ)
  | samples (prev curr : ℚ)
  | pair (prevFast currFast prevSlow currSlow : ℚ)
deriving DecidableEq, Repr

/-- `conditionMet` as computed by `BaseAgent._evaluateTechnicalTriggers`
(part_002 1784-1880); a shape mismatch (insufficient series data) leaves
the condition unmet.  Thresholds pass through `toPrecision(·, 6)` and the
simple threshold conditions additionally reject values within the
`compareFloats` tolerance of the rounded threshold. -/
def technicalConditionMet : TechCondition → TechObservation → Bool
  | TechCondition.crossover, TechObservation.pair pf cf ps cs =>
    decide (pf ≤ ps) && decide (cs < cf)
  | TechCondition.crossunder, TechObservation.pair pf cf ps cs =>
    decide (ps ≤ pf) && decide (cf < cs)
  | TechCondition.crossesAbove t, TechObservation.samples prev curr =>
    decide (prev ≤ toPrecision t 6) && decide (toPrecision t 6 < curr)
  | TechCondition.crossesBelow t, TechObservation.samples prev curr =>
    decide (toPrecision t 6 ≤ prev) && decide (curr < toPrecision t 6)
  | TechCondition.above t, TechObservation.value v =>
    decide (toPrecision t 6 < v) && !compareFloats v (toPrecision t 6) (1 / 10000)
  | TechCondition.below t, TechObservation.value v =>
    decide (v < toPrecision t 6) && !compareFloats v (toPrecision t 6) (1 / 10000)
  | TechCondition.between lo hi, TechObservation.value v =>
    decide (toPrecision lo 6 ≤ v) && decide (v ≤ toPrecision hi 6)
  | TechCondition.outside lo hi, TechObservation.value v =>
    decide (v < toPrecision lo 6) || decide (toPrecision hi 6 < v)
  | _, _ => false

/-- The sub-condition evaluation of `BaseAgent._evaluateSubCondition`
(part_002 1952-2012), used by composite triggers.  It differs from
`technicalConditionMet` only in the threshold conditions, whose
`compareFloats` guard compares against the raw (unrounded) threshold. -/
def subConditionMet : TechCondition → TechObservation → Bool
  | TechCondition.above t, TechObservation.value v =>
    decide (toPrecision t 6 < v) && !compareFloats v t (1 / 10000)
  | TechCondition.below t, TechObservation.value v =>
    decide (v < toPrecision t 6) && !compareFloats v t (1 / 10000)
  | c, o => technicalConditionMet c o

/-- The edge-detection step of `_evaluateTechnicalTriggers`
(part_002 1885-1935): given the stored `lastConditionMet`, produce the
report and the new stored flag. -/
def technicalTriggerStep (condition : TechCondition) (obs : TechObservation)
    (lastConditionMet : Bool) : TriggerReport × Bool :=
  let conditionMet := technicalConditionMet condition obs
  if conditionMet && !lastConditionMet then (TriggerReport.fired, conditionMet)
  else if conditionMet && lastConditionMet then (TriggerReport.stillActive, conditionMet)
  else (TriggerReport.notMet, conditionMet)

/-- Composite operator (part_002 registerCompositeTrigger). -/
inductive CompositeOperator where
  | AND
  | OR
deriving DecidableEq, Repr

/-- `compositeMet` (part_002 2080-2082): the AND operator is `every`, the
OR operator is `some`, over the per-sub-condition results. -/
def compositeConditionMet (operator : CompositeOperator)
    (subs : List (TechCondition × TechObservation)) : Bool :=
  let subResults := subs.map (fun sc => subConditionMet sc.1 sc.2)
  match operator with
  | CompositeOperator.AND => subResults.all (fun r => r)
  | CompositeOperator.OR => subResults.any (fun r => r)

/-- One evaluation of a composite trigger (`_evaluateCompositeTriggers`,
part_002 2054-2127): evaluate every sub-condition, combine with the
operator, then apply the same fire-once edge rule to the composite flag. -/
def compositeTriggerStep (operator : CompositeOperator)
    (subs : List (TechCondition × TechObservation)) (lastConditionMet : Bool) :
    TriggerReport × Bool :=
  let compositeMet := compositeConditionMet operator subs
  if compositeMet && !lastConditionMet then (TriggerReport.fired, compositeMet)
  else if compositeMet && lastConditionMet then (TriggerReport.stillActive, compositeMet)
  else (TriggerReport.notMet, compositeMet)

/-- Coin metadata consumed by the execution layer (`_getCoinInfo`,
part_004): lot-size decimals (`szDecimals`) and maximum leverage. -/
structure CoinInfo where
  szDecimals : ℕ
  maxLeverage : ℕ
deriving DecidableEq, Repr

/-- Outcome of the sizing/validation phase of
`OrderExecutor.placeMarketOrder` (part_004 554-691).  `placed` carries the
final order size and whether it was clamped down to the maximum (the
clamp is reported as a warning, part_004 615, not as a rejection). -/
inductive MarketOrderOutcome where
  | invalidSize
  | noPrice
  | invalidLeverage
  | insufficientBalance (availableBalance : ℚ)
  | insufficientMargin (requiredMargin availableBalance : ℚ)
  | placed (size : ℚ) (adjusted : Bool)
deriving DecidableEq, Repr

/-- Classifies the two itemized insufficient-balance rejections of
`placeMarketOrder` (part_004 610-613 and 634-637). -/
def isInsufficientOutcome : MarketOrderOutcome → Bool
  | MarketOrderOutcome.insufficientBalance _ => true
  | MarketOrderOutcome.insufficientMargin _ _ => true
  | _ => false

/-- The fee-aware maximum size of part_004 601-605:
`denom = 1/effectiveLev + takerFeeRate`, `maxNotional = availableBalance /
denom` (0 when the denominator is not positive), divided by the mid price,
floored at 0 and rounded to the coin's lot decimals. -/
def marketMaxSize (szDecimals : ℕ)
    (takerFeeRate effectiveLev availableBalance midPrice : ℚ) : ℚ :=
  let denom := 1 / effectiveLev + takerFeeRate
  let maxNotional := if 0 < denom then availableBalance / denom else 0
  let rawMaxSize := maxNotional / midPrice
  toFixed (max 0 rawMaxSize) szDecimals

/-- The fee-aware margin requirement of part_004 622-625: required margin
for the position value plus the estimated taker fee. -/
def requiredMargin (takerFeeRate effectiveLev midPrice size : ℚ) : ℚ :=
  size * midPrice / effectiveLev + size * midPrice * takerFeeRate

/-- The sizing, balance and margin phase of `OrderExecutor.placeMarketOrder`
(part_004 554-691), up to the venue call.  The requested size is rounded to
the lot decimals (`toFixed`, part_004 560); reduce-only orders skip every
balance and margin check (part_004 585-587); otherwise the size is clamped
to `marketMaxSize` (rejecting only when that maximum is non-positive) and
the margin check reserves the estimated taker fee.  The redundant re-run of
`_validatePositiveSize` after the clamp (part_004 619) cannot fire: the
clamped size is positive in that branch. -/
def placeMarketOrderCheck (coinInfo : CoinInfo) (takerFeeRate leverageForOrder : ℚ)
    (availableBalanceRaw midPrice sizeRequested : ℚ) (reduceOnly : Bool) :
    MarketOrderOutcome :=
  let size := toFixed sizeRequested coinInfo.szDecimals
  if size ≤ 0 then MarketOrderOutcome.invalidSize
  else if midPrice = 0 then MarketOrderOutcome.noPrice
  else if reduceOnly then MarketOrderOutcome.placed size false
  else
    let availableBalance := max 0 availableBalanceRaw
    let effectiveLev := min leverageForOrder (coinInfo.maxLeverage : ℚ)
    if effectiveLev ≤ 0 then MarketOrderOutcome.invalidLeverage
    else
      let maxSize :=
        marketMaxSize coinInfo.szDecimals takerFeeRate effectiveLev availableBalance midPrice
      if maxSize < size then
        if maxSize ≤ 0 then MarketOrderOutcome.insufficientBalance availableBalance
        else if availableBalance < requiredMargin takerFeeRate effectiveLev midPrice maxSize then
          MarketOrderOutcome.insufficientMargin
            (requiredMargin takerFeeRate effectiveLev midPrice maxSize) availableBalance
        else MarketOrderOutcome.placed maxSize true
      else
        if availableBalance < requiredMargin takerFeeRate effectiveLev midPrice size then
          MarketOrderOutcome.insufficientMargin
            (requiredMargin takerFeeRate effectiveLev midPrice size) availableBalance
        else MarketOrderOutcome.placed size false

/-- What the close handler of `HyperliquidWSManager.connect` (ws.js
125-153) decides to do. -/
inductive CloseAction where
  | ignore
  | fatal (attempts : ℕ)
  | reconnectAfter (delay : ℤ) (attempts : ℕ)
deriving DecidableEq, Repr

/-- The close handler of ws.js 125-153: an intentional close does nothing;
otherwise the consecutive attempt counter is bumped, the fatal-error
callback replaces reconnection once it exceeds the cap, and the reconnect
timer is set to `min(base * 2^(attempts-1), maxDelay)` plus the jitter
(`Math.random() * exp * 0.2`), rounded.  `jitter` stands for the sampled
random term. -/
def onSocketClose (intentionalClose : Bool) (reconnectBaseMs reconnectMaxMs : ℚ)
    (maxReconnectAttempts reconnectAttempts : ℕ) (jitter : ℚ) : CloseAction :=
  if intentionalClose then CloseAction.ignore
  else
    let attempts := reconnectAttempts + 1
    if maxReconnectAttempts < attempts then CloseAction.fatal attempts
    else
      let exp2 := min (reconnectBaseMs * 2 ^ (attempts - 1)) reconnectMaxMs
      CloseAction.reconnectAfter (round (exp2 + jitter)) attempts

/-- A registered subscription: channel plus parameter set, the value type of
the `_subscriptions` table (ws.js 48-50). -/
structure Subscription where
  channel : String
  params : List (String × String)
deriving DecidableEq, Repr

/-- Insert a parameter into a name-sorted parameter list (stable). -/
def insertSortedParam (kv : String × String) :
    List (String × String) → List (String × String)
  | [] => [kv]
  | x :: xs =>
    if kv.1 ≤ x.1 then kv :: x :: xs else x :: insertSortedParam kv xs

/-- Sort parameters by name (JS `Object.keys(params).sort()`). -/
def sortParamsByName : List (String × String) → List (String × String)
  | [] => []
  | x :: xs => insertSortedParam x (sortParamsByName xs)

/-- `_makeKey` (ws.js 232-235): name-sorted `k=v` pairs joined by `&`,
prefixed by the channel when parameters exist. -/
def makeKey (s : Subscription) : String :=
  let sorted := sortParamsByName s.params
  let paramStr := String.intercalate "&" (sorted.map (fun kv => kv.1 ++ "=" ++ kv.2))
  if paramStr = "" then s.channel else s.channel ++ ":" ++ paramStr

/-- An outbound wire message (`_buildSubMessage` / unsubscribe messages,
ws.js 241-246). -/
structure WireMessage where
  method : String
  channel : String
  params : List (String × String)
deriving DecidableEq, Repr

/-- `_buildSubMessage(channel, params)` (ws.js 241-246). -/
def buildSubMessage (channel : String) (params : List (String × String)) : WireMessage :=
  { method := "subscribe", channel := channel, params := params }

/-- `_resubscribeAll` (ws.js 320-326): send one subscribe message per entry
of the in-memory subscription table. -/
def resubscribeAll (subscriptions : List Subscription) : List WireMessage :=
  subscriptions.map (fun sub => buildSubMessage sub.channel sub.params)

/-- The open handler of ws.js 92-110: flush the pending queue in order,
then resubscribe every registered key unless this is the first
connection. -/
def onSocketOpen (isFirstConnection : Bool) (pendingQueue : List WireMessage)
    (subscriptions : List Subscription) : List WireMessage :=
  pendingQueue ++ (if isFirstConnection then [] else resubscribeAll subscriptions)

/-- `OrderExecutor._roundPrice` (part_004 451-472): zero and integer prices
are returned unchanged; otherwise the price is rounded to 5 significant
figures via its decimal magnitude (`Math.floor(Math.log10(|price|))`,
which is `Int.log 10 |price|` on ℚ) and then clamped to
`max(0, 6 - szDecimals)` decimal places.  Only `szDecimals` of the coin
metadata is read; `maxLeverage` is never consulted. -/
def roundPrice (price : ℚ) (coinInfo : CoinInfo) : ℚ :=
  if price = 0 then 0
  else if price.den = 1 then price
  else
    let sigFigs : ℤ := 5
    let magnitude : ℤ := Int.log 10 |price|
    let scale : ℚ := 10 ^ (sigFigs - 1 - magnitude)
    let rounded : ℚ := ((round (price * scale) : ℤ) : ℚ) / scale
    let maxDecimals : ℤ := max 0 (6 - (coinInfo.szDecimals : ℤ))
    let decimalScale : ℚ := 10 ^ maxDecimals
    ((round (rounded * decimalScale) : ℤ) : ℚ) / decimalScale

/-- C3: for every closed position, gross PnL is `(exitPrice − entryPrice) ×
exitSize` for longs and `(entryPrice − exitPrice) × exitSize` for shorts,
`net = gross − (entryFee + exitFee)`, and (when the entry value is positive)
`percent = net / (entryPrice × entrySize) × 100`; in the concrete scenario of
a long of size 1 entered at 100 with entry fee 0.05 and closed at 110 with
exit fee 0.055, gross = 10, net = 9.895 and percent = 9.895. -/
theorem calculatePnl_spec :
    (∀ (entry : EntryBlock) (ex : ExitBlock), 0 < entry.price * entry.size →
      (calculatePnl entry ex).gross =
        (if entry.side = Side.buy then (ex.price - entry.price) * ex.size
         else (entry.price - ex.price) * ex.size) ∧
      (calculatePnl entry ex).net =
        (calculatePnl entry ex).gross - (entry.fee + ex.fee) ∧
      (calculatePnl entry ex).percent =
        (calculatePnl entry ex).net / (entry.price * entry.size) * 100) ∧
    ((calculatePnl ⟨Side.buy, 1, 100, 5 / 100⟩ ⟨1, 110, 55 / 1000⟩).gross = 10 ∧
     (calculatePnl ⟨Side.buy, 1, 100, 5 / 100⟩ ⟨1, 110, 55 / 1000⟩).net = 9895 / 1000 ∧
     (calculatePnl ⟨Side.buy, 1, 100, 5 / 100⟩ ⟨1, 110, 55 / 1000⟩).percent = 9895 / 1000) := by
  constructor
  · intro entry ex h
    refine ⟨rfl, rfl, ?_⟩
    simp only [calculatePnl, h, if_pos]
  · refine ⟨by norm_num [calculatePnl], by norm_num [calculatePnl], by norm_num [calculatePnl]⟩

/-- Witness for C3: instantiates the general part of `calculatePnl_spec` at
the scenario input, discharging the positive-entry-value hypothesis. -/
theorem calculatePnl_spec_witness :
    (0 : ℚ) < 100 * 1 ∧
    ((calculatePnl ⟨Side.buy, 1, 100, 5 / 100⟩ ⟨1, 110, 55 / 1000⟩).gross =
      (if Side.buy = Side.buy then ((110 : ℚ) - 100) * 1 else ((100 : ℚ) - 110) * 1) ∧
     (calculatePnl ⟨Side.buy, 1, 100, 5 / 100⟩ ⟨1, 110, 55 / 1000⟩).net =
      (calculatePnl ⟨Side.buy, 1, 100, 5 / 100⟩ ⟨1, 110, 55 / 1000⟩).gross - (5 / 100 + 55 / 1000) ∧
     (calculatePnl ⟨Side.buy, 1, 100, 5 / 100⟩ ⟨1, 110, 55 / 1000⟩).percent =
      (calculatePnl ⟨Side.buy, 1, 100, 5 / 100⟩ ⟨1, 110, 55 / 1000⟩).net / (100 * 1) * 100) :=
  ⟨by norm_num, calculatePnl_spec.1 ⟨Side.buy, 1, 100, 5 / 100⟩ ⟨1, 110, 55 / 1000⟩ (by norm_num)⟩

/-- Unfolding lemma: a close whose requested size is strictly below the open
size takes the proportional-split branch of `closePosition`. -/
theorem closePosition_partial_eq (position : EntryBlock) (size price fee : ℚ)
    (hs : 0 < size) (hp : 0 < price) (hlt : size < position.size) :
    closePosition position size price fee =
      some ({ entry := { position with
                         size := size,
                         fee := position.fee * (size / position.size) },
              ex := { size := size, price := price, fee := fee },
              pnl := calculatePnl
                { position with size := size, fee := position.fee * (size / position.size) }
                { size := size, price := price, fee := fee },
              status := PosStatus.closed },
            some { position with
                   size := position.size - size,
                   fee := position.fee * ((position.size - size) / position.size) }) := by
  have hmin : min size position.size = size := min_eq_left hlt.le
  simp only [closePosition, if_neg (not_le.mpr hs), if_neg (not_le.mpr hp), hmin, if_pos hlt]

/-- Unfolding lemma: a close whose requested size is at least the open size
takes the full-close branch of `closePosition`. -/
theorem closePosition_full_eq (position : EntryBlock) (size price fee : ℚ)
    (hs : 0 < size) (hp : 0 < price) (hge : position.size ≤ size) :
    closePosition position size price fee =
      some ({ entry := position,
              ex := { size := position.size, price := price, fee := fee },
              pnl := calculatePnl position { size := position.size, price := price, fee := fee },
              status := PosStatus.closed }, none) := by
  have hmin : min size position.size = position.size := min_eq_right hge
  simp only [closePosition, if_neg (not_le.mpr hs), if_neg (not_le.mpr hp), hmin,
    if_neg (lt_irrefl position.size)]

/-- C4: the effective close size is `min(requested, open)`; a strictly
partial close archives the closed portion with entry fee scaled by the
closed fraction while the remainder keeps the leftover size with its entry
fee reduced proportionally; and for a two-step close of sizes A and B with
A + B = S, the closed-portion net PnLs sum exactly to the net PnL of one
full close of size S at the size-blended exit price with the summed exit
fees (exact on ℚ, hence within rounding on floats). -/
theorem closePosition_spec :
    (∀ (position : EntryBlock) (size price fee : ℚ), 0 < size → 0 < price →
      ∃ c rest, closePosition position size price fee = some (c, rest) ∧
        c.ex.size = min size position.size) ∧
    (∀ (position : EntryBlock) (A B p₁ p₂ f₁ f₂ : ℚ),
      0 < A → 0 < B → A + B = position.size → 0 < p₁ → 0 < p₂ →
      ∃ c₁ rem c₂ cFull,
        closePosition position A p₁ f₁ = some (c₁, some rem) ∧
        c₁.entry.fee = position.fee * (A / position.size) ∧
        c₁.ex.size = A ∧
        rem.size = position.size - A ∧
        rem.fee = position.fee * ((position.size - A) / position.size) ∧
        closePosition rem B p₂ f₂ = some (c₂, none) ∧
        closePosition position position.size ((A * p₁ + B * p₂) / position.size) (f₁ + f₂) =
          some (cFull, none) ∧
        c₁.pnl.net + c₂.pnl.net = cFull.pnl.net) := by
  constructor
  · intro position size price fee hs hp
    rcases le_or_lt position.size size with hge | hlt
    · exact ⟨_, _, closePosition_full_eq position size price fee hs hp hge,
        (min_eq_right hge).symm⟩
    · exact ⟨_, _, closePosition_partial_eq position size price fee hs hp hlt,
        (min_eq_left hlt.le).symm⟩
  · intro position A B p₁ p₂ f₁ f₂ hA hB hsum hp₁ hp₂
    have hSpos : 0 < position.size := by rw [← hsum]; positivity
    have hAlt : A < position.size := by rw [← hsum]; linarith
    have hremsize : position.size - A = B := by linarith
    have hpbar : 0 < (A * p₁ + B * p₂) / position.size := by positivity
    have h₁ := closePosition_partial_eq position A p₁ f₁ hA hp₁ hAlt
    have hremle :
        (EntryBlock.mk position.side (position.size - A)
          position.price (position.fee * ((position.size - A) / position.size))).size ≤ B :=
      le_of_eq hremsize
    have h₂ := closePosition_full_eq _ B p₂ f₂ hB hp₂ hremle
    have h₃ := closePosition_full_eq position position.size
      ((A * p₁ + B * p₂) / position.size) (f₁ + f₂) hSpos hpbar le_rfl
    refine ⟨_, _, _, _, h₁, rfl, rfl, rfl, rfl, h₂, h₃, ?_⟩
    have hS : position.size ≠ 0 := hSpos.ne'
    by_cases hside : position.side = Side.buy <;>
      · simp only [calculatePnl, hside, if_true, if_false, reduceIte]
        field_simp
        rw [← hremsize]
        ring

/-- Witness for C4: `closePosition_spec` applied to a long of size 2 entered
at 100 with fee 0.1, closed in two steps of size 1 at 110 and 120. -/
theorem closePosition_spec_witness :
    ((0 : ℚ) < 1 ∧ (0 : ℚ) < 110 ∧ (1 : ℚ) + 1 = 2) ∧
    (∃ c rest, closePosition ⟨Side.buy, 2, 100, 1 / 10⟩ 1 110 (1 / 100) = some (c, rest) ∧
      c.ex.size = min 1 (EntryBlock.size ⟨Side.buy, 2, 100, 1 / 10⟩)) ∧
    (∃ c₁ rem c₂ cFull,
      closePosition ⟨Side.buy, 2, 100, 1 / 10⟩ 1 110 (1 / 100) = some (c₁, some rem) ∧
      c₁.entry.fee = (1 / 10 : ℚ) * (1 / EntryBlock.size ⟨Side.buy, 2, 100, 1 / 10⟩) ∧
      c₁.ex.size = 1 ∧
      rem.size = EntryBlock.size ⟨Side.buy, 2, 100, 1 / 10⟩ - 1 ∧
      rem.fee = (1 / 10 : ℚ) *
        ((EntryBlock.size ⟨Side.buy, 2, 100, 1 / 10⟩ - 1) / EntryBlock.size ⟨Side.buy, 2, 100, 1 / 10⟩) ∧
      closePosition rem 1 120 (2 / 100) = some (c₂, none) ∧
      closePosition ⟨Side.buy, 2, 100, 1 / 10⟩ (EntryBlock.size ⟨Side.buy, 2, 100, 1 / 10⟩)
        ((1 * 110 + 1 * 120) / EntryBlock.size ⟨Side.buy, 2, 100, 1 / 10⟩) (1 / 100 + 2 / 100) =
        some (cFull, none) ∧
      c₁.pnl.net + c₂.pnl.net = cFull.pnl.net) :=
  ⟨⟨by norm_num, by norm_num, by norm_num⟩,
   closePosition_spec.1 ⟨Side.buy, 2, 100, 1 / 10⟩ 1 110 (1 / 100) (by norm_num) (by norm_num),
   closePosition_spec.2 ⟨Side.buy, 2, 100, 1 / 10⟩ 1 1 110 120 (1 / 100) (2 / 100)
     (by norm_num) (by norm_num) (by norm_num) (by norm_num) (by norm_num)⟩

/-- C5: a tracked position with no matching nonzero exchange position, or a
flipped exchange direction, is force-closed as `closed_external` with an
estimated PnL — exit at the current mid with the exit fee at the default
taker rate, or, with no mid, gross 0 and net equal to minus the entry fee;
a matching same-direction exchange position is kept unmodified, warning
exactly when the size drift exceeds 10 percent of the exchange size; and
reconcile never adopts exchange positions into the ledger (every surviving
entry is an unmodified input entry, every closed record stems from a
tracked coin). -/
theorem reconcile_spec :
    (∀ (rate : ℚ) (entry : EntryBlock) (exchangeSize : Option ℚ) (mid : Option ℚ),
      (exchangeSize = none ∨
        (∃ s, exchangeSize = some s ∧
          ((entry.side = Side.buy ∧ s < 0) ∨ (entry.side = Side.sell ∧ 0 < s)))) →
      reconcileOne rate entry exchangeSize mid =
        ReconcileAction.removeClosed (reconcileExternalClose rate entry mid) ∧
      (reconcileExternalClose rate entry mid).status = PosStatus.closedExternal ∧
      (reconcileExternalClose rate entry mid).pnl.estimated = true) ∧
    (∀ (rate : ℚ) (entry : EntryBlock) (m : ℚ), 0 < m →
      (reconcileExternalClose rate entry (some m)).ex.price = m ∧
      (reconcileExternalClose rate entry (some m)).ex.fee = entry.size * m * rate) ∧
    (∀ (rate : ℚ) (entry : EntryBlock),
      (reconcileExternalClose rate entry none).pnl.gross = 0 ∧
      (reconcileExternalClose rate entry none).pnl.net = -entry.fee) ∧
    (∀ (rate : ℚ) (entry : EntryBlock) (s : ℚ) (mid : Option ℚ),
      ((entry.side = Side.buy ∧ 0 < s) ∨ (entry.side = Side.sell ∧ s < 0)) →
      reconcileOne rate entry (some s) mid =
        ReconcileAction.keep (decide (10 < abs (entry.size - abs s) / abs s * 100))) ∧
    (∀ (rate : ℚ) (openPositions : List (String × EntryBlock))
        (exchangePositions currentMids : List (String × ℚ)),
      (∀ p ∈ (reconcile rate openPositions exchangePositions currentMids).openAfter,
        p ∈ openPositions) ∧
      (∀ q ∈ (reconcile rate openPositions exchangePositions currentMids).closedNew,
        ∃ entry, (q.1, entry) ∈ openPositions)) := by
  refine ⟨?_, ?_, ?_, ?_, ?_⟩
  · intro rate entry exchangeSize mid h
    have hestimated : (reconcileExternalClose rate entry mid).pnl.estimated = true := by
      rcases mid with _ | m
      · rfl
      · by_cases hm : (0 : ℚ) < m <;> simp [reconcileExternalClose, hm]
    rcases h with h | ⟨s, hs, hcond⟩
    · subst h; exact ⟨rfl, rfl, hestimated⟩
    · subst hs
      exact ⟨by simp only [reconcileOne, if_pos hcond], rfl, hestimated⟩
  · intro rate entry m hm
    constructor
    · rfl
    · simp [reconcileExternalClose, hm]
  · intro rate entry
    constructor <;> rfl
  · intro rate entry s mid h
    have hcond : ¬ ((entry.side = Side.buy ∧ s < 0) ∨ (entry.side = Side.sell ∧ 0 < s)) := by
      rcases h with ⟨hb, hs⟩ | ⟨hb, hs⟩ <;> rintro (⟨hb2, hs2⟩ | ⟨hb2, hs2⟩)
      · exact absurd hs2 (not_lt.mpr hs.le)
      · rw [hb] at hb2; exact Side.noConfusion hb2
      · rw [hb] at hb2; exact Side.noConfusion hb2
      · exact absurd hs2 (not_lt.mpr hs.le)
    have hspos : (0 : ℚ) < |s| := by
      rcases h with ⟨_, hs⟩ | ⟨_, hs⟩
      · exact abs_pos.mpr hs.ne'
      · exact abs_pos.mpr hs.ne
    simp only [reconcileOne, if_neg hcond, if_pos hspos]
  · intro rate openPositions exchangePositions currentMids
    constructor
    · intro p hp
      exact (List.mem_filter.mp hp).1
    · intro q hq
      rcases List.mem_filterMap.mp hq with ⟨a, ha, hfa⟩
      rcases hact : reconcileAct rate exchangePositions currentMids a with c | w
      · rw [hact] at hfa
        simp only [Option.some.injEq] at hfa
        refine ⟨a.2, ?_⟩
        have : q.1 = a.1 := by rw [← hfa]
        rw [this]
        exact ha
      · rw [hact] at hfa
        exact absurd hfa (by simp)

/-- Witness for C5: `reconcile_spec` applied to the scenario of a tracked
long of size 1 for coin X while the exchange reports a zero position, with
mid 90 available, and to a matched long with 2x size drift. -/
theorem reconcile_spec_witness :
    ((reconcileOne (45 / 100000) ⟨Side.buy, 1, 100, 1 / 20⟩ none (some 90) =
        ReconcileAction.removeClosed
          (reconcileExternalClose (45 / 100000) ⟨Side.buy, 1, 100, 1 / 20⟩ (some 90)) ∧
      (reconcileExternalClose (45 / 100000) ⟨Side.buy, 1, 100, 1 / 20⟩ (some 90)).status =
        PosStatus.closedExternal ∧
      (reconcileExternalClose (45 / 100000) ⟨Side.buy, 1, 100, 1 / 20⟩ (some 90)).pnl.estimated =
        true) ∧
     ((reconcileExternalClose (45 / 100000) ⟨Side.buy, 1, 100, 1 / 20⟩ (some 90)).ex.price = 90 ∧
      (reconcileExternalClose (45 / 100000) ⟨Side.buy, 1, 100, 1 / 20⟩ (some 90)).ex.fee =
        EntryBlock.size ⟨Side.buy, 1, 100, 1 / 20⟩ * 90 * (45 / 100000)) ∧
     ((reconcileExternalClose (45 / 100000) ⟨Side.buy, 1, 100, 1 / 20⟩ none).pnl.gross = 0 ∧
      (reconcileExternalClose (45 / 100000) ⟨Side.buy, 1, 100, 1 / 20⟩ none).pnl.net =
        -EntryBlock.fee ⟨Side.buy, 1, 100, 1 / 20⟩) ∧
     (reconcileOne (45 / 100000) ⟨Side.buy, 1, 100, 1 / 20⟩ (some 2) (some 90) =
        ReconcileAction.keep
          (decide (10 < abs (EntryBlock.size ⟨Side.buy, 1, 100, 1 / 20⟩ - abs (2 : ℚ)) / abs (2 : ℚ) * 100))) ∧
     (∀ p ∈ (reconcile (45 / 100000) [("X", ⟨Side.buy, 1, 100, 1 / 20⟩)] [("X", 0)] []).openAfter,
        p ∈ [("X", (⟨Side.buy, 1, 100, 1 / 20⟩ : EntryBlock))]) ∧
     (∀ q ∈ (reconcile (45 / 100000) [("X", ⟨Side.buy, 1, 100, 1 / 20⟩)] [("X", 0)] []).closedNew,
        ∃ entry, (q.1, entry) ∈ [("X", (⟨Side.buy, 1, 100, 1 / 20⟩ : EntryBlock))])) :=
  ⟨reconcile_spec.1 (45 / 100000) ⟨Side.buy, 1, 100, 1 / 20⟩ none (some 90) (Or.inl rfl),
   reconcile_spec.2.1 (45 / 100000) ⟨Side.buy, 1, 100, 1 / 20⟩ 90 (by norm_num),
   reconcile_spec.2.2.1 (45 / 100000) ⟨Side.buy, 1, 100, 1 / 20⟩,
   reconcile_spec.2.2.2.1 (45 / 100000) ⟨Side.buy, 1, 100, 1 / 20⟩ 2 (some 90)
     (Or.inl ⟨rfl, by norm_num⟩),
   (reconcile_spec.2.2.2.2 (45 / 100000) [("X", ⟨Side.buy, 1, 100, 1 / 20⟩)] [("X", 0)] []).1,
   (reconcile_spec.2.2.2.2 (45 / 100000) [("X", ⟨Side.buy, 1, 100, 1 / 20⟩)] [("X", 0)] []).2⟩

/-- Peeling the first entry off a mapped range. -/
theorem range_map_eq_cons {β : Type} (g : ℕ → β) (n : ℕ) (hn : 1 ≤ n) :
    (List.range n).map g = g 0 :: (List.range (n - 1)).map (fun i => g (i + 1)) := by
  obtain ⟨k, rfl⟩ := Nat.exists_eq_add_of_le hn
  rw [Nat.add_comm 1 k, Nat.add_sub_cancel, List.range_succ_eq_map]
  simp [List.map_map, Function.comp]

/-- The retry loop makes between 1 and `remaining + 1` invocations and its
sleeps are exactly `baseDelay * 2 ^ (attempt + i)` for the successive retry
indices `i`. -/
theorem retryGo_delays {α : Type} (calls : ℕ → Except String α) (baseDelay : ℕ)
    (remaining : ℕ) :
    ∀ attempt,
      1 ≤ (retryGo calls baseDelay attempt remaining).invocations ∧
      (retryGo calls baseDelay attempt remaining).invocations ≤ remaining + 1 ∧
      (retryGo calls baseDelay attempt remaining).delays =
        (List.range ((retryGo calls baseDelay attempt remaining).invocations - 1)).map
          (fun i => baseDelay * 2 ^ (attempt + i)) := by
  induction remaining with
  | zero =>
    intro attempt
    cases h : calls attempt <;> simp [retryGo, h]
  | succ r ih =>
    intro attempt
    cases h : calls attempt with
    | ok a => simp [retryGo, h]
    | error e =>
      by_cases hrl : isRateLimitMessage e
      · obtain ⟨h1, h2, h3⟩ := ih (attempt + 1)
        simp only [retryGo, h, hrl, if_true]
        refine ⟨by omega, by omega, ?_⟩
        simp only [Nat.add_sub_cancel]
        rw [range_map_eq_cons (fun i => baseDelay * 2 ^ (attempt + i))
          (retryGo calls baseDelay (attempt + 1) r).invocations h1]
        rw [h3]
        have hsh : ∀ i : ℕ, attempt + 1 + i = attempt + (i + 1) := fun i => by omega
        simp only [hsh, Nat.add_zero]
      · simp [retryGo, h, hrl]

/-- If the first `n` attempts are rate-limited errors, the loop state after
them is determined by the n-th call: success returns it, a non-rate-limited
error is rethrown, in both cases after exactly `n + 1` invocations. -/
theorem retryGo_stop {α : Type} (calls : ℕ → Except String α) (baseDelay : ℕ)
    (n : ℕ) :
    ∀ (remaining attempt : ℕ), n ≤ remaining →
      (∀ i, i < n → ∃ ei, calls (attempt + i) = Except.error ei ∧
        isRateLimitMessage ei = true) →
      (∀ v, calls (attempt + n) = Except.ok v →
        (retryGo calls baseDelay attempt remaining).result = Except.ok v ∧
        (retryGo calls baseDelay attempt remaining).invocations = n + 1) ∧
      (∀ e, calls (attempt + n) = Except.error e → isRateLimitMessage e = false →
        (retryGo calls baseDelay attempt remaining).result = Except.error e ∧
        (retryGo calls baseDelay attempt remaining).invocations = n + 1) := by
  induction n with
  | zero =>
    intro remaining attempt _ _
    constructor
    · intro v hv
      rw [Nat.add_zero] at hv
      cases remaining <;> simp [retryGo, hv]
    · intro e he hrl
      rw [Nat.add_zero] at he
      cases remaining <;> simp [retryGo, he, hrl]
  | succ m ih =>
    intro remaining attempt hle hleading
    obtain ⟨e0, he0, hrl0⟩ := hleading 0 (Nat.succ_pos m)
    rw [Nat.add_zero] at he0
    obtain ⟨r, rfl⟩ : ∃ r, remaining = r + 1 := by
      cases remaining with
      | zero => omega
      | succ r => exact ⟨r, rfl⟩
    have hshift : ∀ i, i < m → ∃ ei, calls (attempt + 1 + i) = Except.error ei ∧
        isRateLimitMessage ei = true := by
      intro i hi
      obtain ⟨ei, hei, hrli⟩ := hleading (i + 1) (by omega)
      exact ⟨ei, by rw [show attempt + 1 + i = attempt + (i + 1) by omega]; exact hei, hrli⟩
    obtain ⟨ihok, iherr⟩ := ih r (attempt + 1) (by omega) hshift
    constructor
    · intro v hv
      have hv2 : calls (attempt + 1 + m) = Except.ok v := by
        rw [show attempt + 1 + m = attempt + (m + 1) by omega]; exact hv
      obtain ⟨hres, hinv⟩ := ihok v hv2
      simp only [retryGo, he0, hrl0, if_true]
      exact ⟨hres, by omega⟩
    · intro e he hrl
      have he2 : calls (attempt + 1 + m) = Except.error e := by
        rw [show attempt + 1 + m = attempt + (m + 1) by omega]; exact he
      obtain ⟨hres, hinv⟩ := iherr e he2 hrl
      simp only [retryGo, he0, hrl0, if_true]
      exact ⟨hres, by omega⟩

/-- If every permitted attempt raises a rate-limited error, the loop makes
all `remaining + 1` invocations and rethrows the final error. -/
theorem retryGo_exhaust {α : Type} (calls : ℕ → Except String α) (baseDelay : ℕ)
    (remaining : ℕ) :
    ∀ attempt,
      (∀ i, i ≤ remaining → ∃ ei, calls (attempt + i) = Except.error ei ∧
        isRateLimitMessage ei = true) →
      (∃ e, calls (attempt + remaining) = Except.error e ∧
        (retryGo calls baseDelay attempt remaining).result = Except.error e) ∧
      (retryGo calls baseDelay attempt remaining).invocations = remaining + 1 := by
  induction remaining with
  | zero =>
    intro attempt h
    obtain ⟨e0, he0, _⟩ := h 0 le_rfl
    rw [Nat.add_zero] at he0
    exact ⟨⟨e0, by rw [Nat.add_zero]; exact he0, by simp [retryGo, he0]⟩, by simp [retryGo, he0]⟩
  | succ r ih =>
    intro attempt h
    obtain ⟨e0, he0, hrl0⟩ := h 0 (Nat.zero_le _)
    rw [Nat.add_zero] at he0
    have hshift : ∀ i, i ≤ r → ∃ ei, calls (attempt + 1 + i) = Except.error ei ∧
        isRateLimitMessage ei = true := by
      intro i hi
      obtain ⟨ei, hei, hrli⟩ := h (i + 1) (by omega)
      exact ⟨ei, by rw [show attempt + 1 + i = attempt + (i + 1) by omega]; exact hei, hrli⟩
    obtain ⟨⟨e, he, hres⟩, hinv⟩ := ih (attempt + 1) hshift
    refine ⟨⟨e, ?_, ?_⟩, ?_⟩
    · rw [show attempt + (r + 1) = attempt + 1 + r by omega]; exact he
    · simp only [retryGo, he0, hrl0, if_true]
      exact hres
    · simp only [retryGo, he0, hrl0, if_true]
      omega

/-- C9: `retryWithBackoff` invokes the wrapped function between 1 and
`maxRetries + 1` times; the i-th retry sleeps `baseDelay * 2 ^ i` (the delay
doubles each retry); after any run of rate-limited errors, a success is
returned and a non-rate-limited error is rethrown immediately with no
further invocation; and when every permitted attempt is rate-limited the
final error is rethrown after exactly `maxRetries + 1` invocations. -/
theorem retryWithBackoff_spec :
    (∀ (α : Type) (calls : ℕ → Except String α) (maxRetries baseDelay : ℕ),
      1 ≤ (retryWithBackoff calls maxRetries baseDelay).invocations ∧
      (retryWithBackoff calls maxRetries baseDelay).invocations ≤ maxRetries + 1) ∧
    (∀ (α : Type) (calls : ℕ → Except String α) (maxRetries baseDelay : ℕ),
      (retryWithBackoff calls maxRetries baseDelay).delays =
        (List.range ((retryWithBackoff calls maxRetries baseDelay).invocations - 1)).map
          (fun attempt => baseDelay * 2 ^ attempt)) ∧
    (∀ (α : Type) (calls : ℕ → Except String α) (maxRetries baseDelay n : ℕ) (e : String),
      n ≤ maxRetries →
      (∀ i, i < n → ∃ ei, calls i = Except.error ei ∧ isRateLimitMessage ei = true) →
      calls n = Except.error e → isRateLimitMessage e = false →
      (retryWithBackoff calls maxRetries baseDelay).result = Except.error e ∧
      (retryWithBackoff calls maxRetries baseDelay).invocations = n + 1) ∧
    (∀ (α : Type) (calls : ℕ → Except String α) (maxRetries baseDelay n : ℕ) (v : α),
      n ≤ maxRetries →
      (∀ i, i < n → ∃ ei, calls i = Except.error ei ∧ isRateLimitMessage ei = true) →
      calls n = Except.ok v →
      (retryWithBackoff calls maxRetries baseDelay).result = Except.ok v ∧
      (retryWithBackoff calls maxRetries baseDelay).invocations = n + 1) ∧
    (∀ (α : Type) (calls : ℕ → Except String α) (maxRetries baseDelay : ℕ),
      (∀ i, i ≤ maxRetries → ∃ ei, calls i = Except.error ei ∧
        isRateLimitMessage ei = true) →
      (∃ e, calls maxRetries = Except.error e ∧
        (retryWithBackoff calls maxRetries baseDelay).result = Except.error e) ∧
      (retryWithBackoff calls maxRetries baseDelay).invocations = maxRetries + 1) := by
  refine ⟨?_, ?_, ?_, ?_, ?_⟩
  · intro α calls maxRetries baseDelay
    obtain ⟨h1, h2, _⟩ := retryGo_delays calls baseDelay maxRetries 0
    exact ⟨h1, h2⟩
  · intro α calls maxRetries baseDelay
    obtain ⟨_, _, h3⟩ := retryGo_delays calls baseDelay maxRetries 0
    simpa [retryWithBackoff] using h3
  · intro α calls maxRetries baseDelay n e hn hleading he hrl
    obtain ⟨_, herr⟩ := retryGo_stop calls baseDelay n maxRetries 0 hn
      (by intro i hi; simpa using hleading i hi)
    exact herr e (by simpa using he) hrl
  · intro α calls maxRetries baseDelay n v hn hleading hv
    obtain ⟨hok, _⟩ := retryGo_stop calls baseDelay n maxRetries 0 hn
      (by intro i hi; simpa using hleading i hi)
    exact hok v (by simpa using hv)
  · intro α calls maxRetries baseDelay h
    obtain ⟨⟨e, he, hres⟩, hinv⟩ := retryGo_exhaust calls baseDelay maxRetries 0
      (by intro i hi; simpa using h i hi)
    exact ⟨⟨e, by simpa using he, hres⟩, hinv⟩

/-- Witness for C9: a wrapped function that always raises 429 exhausts all
3 + 1 permitted invocations; one that raises a non-rate-limit error is
rethrown after a single invocation. -/
theorem retryWithBackoff_spec_witness :
    ((∃ e, (fun _ : ℕ => (Except.error "429" : Except String ℕ)) 3 = Except.error e ∧
        (retryWithBackoff (fun _ : ℕ => (Except.error "429" : Except String ℕ)) 3 1000).result =
          Except.error e) ∧
      (retryWithBackoff (fun _ : ℕ => (Except.error "429" : Except String ℕ)) 3 1000).invocations =
        3 + 1) ∧
    ((retryWithBackoff (fun _ : ℕ => (Except.error "boom" : Except String ℕ)) 3 1000).result =
        Except.error "boom" ∧
      (retryWithBackoff (fun _ : ℕ => (Except.error "boom" : Except String ℕ)) 3 1000).invocations =
        0 + 1) :=
  ⟨retryWithBackoff_spec.2.2.2.2 ℕ (fun _ => Except.error "429") 3 1000
      (fun _ _ => ⟨"429", rfl, by decide⟩),
   retryWithBackoff_spec.2.2.1 ℕ (fun _ => Except.error "boom") 3 1000 0 "boom"
      (by omega) (fun i hi => absurd hi (Nat.not_lt_zero i)) rfl (by decide)⟩

/-- C10: `calculateTradeFee` returns `fee = size × price × feeRate` where
the rate is the maker rate exactly when the trimmed, lowercased order type
equals alo, and the taker rate for every other order type — in particular
for market, limit, Gtc, Ioc, stop_loss and take_profit. -/
theorem calculateTradeFee_spec :
    (∀ (makerFeeRate takerFeeRate size price : ℚ) (orderType : String),
      (calculateTradeFee makerFeeRate takerFeeRate size price orderType).fee =
        size * price *
          (calculateTradeFee makerFeeRate takerFeeRate size price orderType).feeRate ∧
      (calculateTradeFee makerFeeRate takerFeeRate size price orderType).feeRate =
        (if jsToLower (jsTrim orderType) = "alo" then makerFeeRate else takerFeeRate)) ∧
    (∀ makerFeeRate takerFeeRate : ℚ,
      (calculateTradeFee makerFeeRate takerFeeRate 2 3 "market").feeRate = takerFeeRate ∧
      (calculateTradeFee makerFeeRate takerFeeRate 2 3 "limit").feeRate = takerFeeRate ∧
      (calculateTradeFee makerFeeRate takerFeeRate 2 3 "Gtc").feeRate = takerFeeRate ∧
      (calculateTradeFee makerFeeRate takerFeeRate 2 3 "Ioc").feeRate = takerFeeRate ∧
      (calculateTradeFee makerFeeRate takerFeeRate 2 3 "stop_loss").feeRate = takerFeeRate ∧
      (calculateTradeFee makerFeeRate takerFeeRate 2 3 "take_profit").feeRate = takerFeeRate ∧
      (calculateTradeFee makerFeeRate takerFeeRate 2 3 "Alo").feeRate = makerFeeRate ∧
      (calculateTradeFee makerFeeRate takerFeeRate 2 3 " alo ").feeRate = makerFeeRate) := by
  constructor
  · intro makerFeeRate takerFeeRate size price orderType
    by_cases h : jsToLower (jsTrim orderType) = "alo" <;>
      simp [calculateTradeFee, h]
  · intro makerFeeRate takerFeeRate
    refine ⟨?_, ?_, ?_, ?_, ?_, ?_, ?_, ?_⟩
    · have h : (jsToLower (jsTrim "market") == "alo") = false := by decide
      simp [calculateTradeFee, h]
    · have h : (jsToLower (jsTrim "limit") == "alo") = false := by decide
      simp [calculateTradeFee, h]
    · have h : (jsToLower (jsTrim "Gtc") == "alo") = false := by decide
      simp [calculateTradeFee, h]
    · have h : (jsToLower (jsTrim "Ioc") == "alo") = false := by decide
      simp [calculateTradeFee, h]
    · have h : (jsToLower (jsTrim "stop_loss") == "alo") = false := by decide
      simp [calculateTradeFee, h]
    · have h : (jsToLower (jsTrim "take_profit") == "alo") = false := by decide
      simp [calculateTradeFee, h]
    · have h : (jsToLower (jsTrim "Alo") == "alo") = true := by decide
      simp [calculateTradeFee, h]
    · have h : (jsToLower (jsTrim " alo ") == "alo") = true := by decide
      simp [calculateTradeFee, h]

/-- Counterexample to C1 as stated: a price trigger `{ above: 100 }` whose
very first observed price is 101 fires immediately — `lastPrice` is null at
registration and the above branch treats a missing reference as permission
to fire, so the first observation is not reference-free. -/
theorem priceTrigger_first_observation_fires :
    priceTriggerRun ⟨some 100, none, none⟩ none [101] = [true] := by decide

/-- C1 (amended): with a previous observed price, an `above`/`below`
trigger fires iff the condition transitions from not met to met and a
`crosses` trigger fires iff the price crosses the threshold in either
direction; on the very first nonzero observation an `above` (resp.
`below`) trigger fires iff the price is already strictly above (resp.
below) the threshold while a `crosses` trigger never fires; a condition
that stays met across consecutive observations never fires again; and
every nonzero observation becomes the stored reference price. -/
theorem priceTrigger_spec :
    (∀ a lp cur : ℚ, cur ≠ 0 →
      ((priceTriggerStep ⟨some a, none, none⟩ (some lp) cur).1 = true ↔
        (lp ≤ a ∧ a < cur))) ∧
    (∀ b lp cur : ℚ, cur ≠ 0 →
      ((priceTriggerStep ⟨none, some b, none⟩ (some lp) cur).1 = true ↔
        (b ≤ lp ∧ cur < b))) ∧
    (∀ c lp cur : ℚ, cur ≠ 0 →
      ((priceTriggerStep ⟨none, none, some c⟩ (some lp) cur).1 = true ↔
        ((lp < c ∧ c ≤ cur) ∨ (c < lp ∧ cur ≤ c)))) ∧
    (∀ a cur : ℚ, cur ≠ 0 →
      ((priceTriggerStep ⟨some a, none, none⟩ none cur).1 = true ↔ a < cur)) ∧
    (∀ b cur : ℚ, cur ≠ 0 →
      ((priceTriggerStep ⟨none, some b, none⟩ none cur).1 = true ↔ cur < b)) ∧
    (∀ c cur : ℚ, (priceTriggerStep ⟨none, none, some c⟩ none cur).1 = false) ∧
    (∀ a lp cur : ℚ, a < lp →
      (priceTriggerStep ⟨some a, none, none⟩ (some lp) cur).1 = false) ∧
    (∀ b lp cur : ℚ, lp < b →
      (priceTriggerStep ⟨none, some b, none⟩ (some lp) cur).1 = false) ∧
    (∀ (condition : PriceCondition) (lastPrice : Option ℚ) (cur : ℚ), cur ≠ 0 →
      (priceTriggerStep condition lastPrice cur).2 = some cur) := by
  refine ⟨?_, ?_, ?_, ?_, ?_, ?_, ?_, ?_, ?_⟩
  · intro a lp cur hcur
    simp [priceTriggerStep, priceShouldTrigger, hcur, and_comm]
  · intro b lp cur hcur
    simp [priceTriggerStep, priceShouldTrigger, hcur, and_comm]
  · intro c lp cur hcur
    simp [priceTriggerStep, priceShouldTrigger, hcur]
  · intro a cur hcur
    simp [priceTriggerStep, priceShouldTrigger, hcur]
  · intro b cur hcur
    simp [priceTriggerStep, priceShouldTrigger, hcur]
  · intro c cur
    by_cases hcur : cur = 0 <;> simp [priceTriggerStep, priceShouldTrigger, hcur]
  · intro a lp cur h
    have hna : ¬ (lp ≤ a) := not_le.mpr h
    by_cases hcur : cur = 0 <;> simp [priceTriggerStep, priceShouldTrigger, hcur, hna]
  · intro b lp cur h
    have hnb : ¬ (b ≤ lp) := not_le.mpr h
    by_cases hcur : cur = 0 <;> simp [priceTriggerStep, priceShouldTrigger, hcur, hnb]
  · intro condition lastPrice cur hcur
    simp [priceTriggerStep, hcur]

/-- Witness for C1 (amended): an above-100 trigger with reference price 99
and current price 101 fires (transition), and with reference 101 it does
not fire again at 102. -/
theorem priceTrigger_spec_witness :
    ((101 : ℚ) ≠ 0 ∧
      ((priceTriggerStep ⟨some 100, none, none⟩ (some 99) 101).1 = true ↔
        ((99 : ℚ) ≤ 100 ∧ (100 : ℚ) < 101))) ∧
    ((100 : ℚ) < 101 ∧
      (priceTriggerStep ⟨some 100, none, none⟩ (some 101) 102).1 = false) :=
  ⟨⟨by norm_num, priceTrigger_spec.1 100 99 101 (by norm_num)⟩,
   ⟨by norm_num, priceTrigger_spec.2.2.2.2.2.2.1 100 101 102 (by norm_num)⟩⟩

/-- C2: a technical trigger fires exactly on a false-to-true transition of
its evaluated condition, reports still_active (without firing) while the
condition stays true across consecutive evaluations, and a composite
trigger combines the per-sub-condition results with its AND/OR operator
before applying the same fire-once edge rule at the composite level. -/
theorem technicalTrigger_spec :
    (∀ (condition : TechCondition) (obs : TechObservation) (wasMet : Bool),
      ((technicalTriggerStep condition obs wasMet).1 = TriggerReport.fired ↔
        (technicalConditionMet condition obs = true ∧ wasMet = false)) ∧
      ((technicalTriggerStep condition obs wasMet).1 = TriggerReport.stillActive ↔
        (technicalConditionMet condition obs = true ∧ wasMet = true)) ∧
      (technicalTriggerStep condition obs wasMet).2 = technicalConditionMet condition obs) ∧
    (∀ (condition : TechCondition) (o₁ o₂ : TechObservation) (wasMet : Bool),
      technicalConditionMet condition o₁ = true →
      technicalConditionMet condition o₂ = true →
      (technicalTriggerStep condition o₂
        (technicalTriggerStep condition o₁ wasMet).2).1 = TriggerReport.stillActive) ∧
    (∀ (operator : CompositeOperator) (subs : List (TechCondition × TechObservation))
        (wasMet : Bool),
      ((compositeTriggerStep operator subs wasMet).1 = TriggerReport.fired ↔
        (compositeConditionMet operator subs = true ∧ wasMet = false)) ∧
      ((compositeTriggerStep operator subs wasMet).1 = TriggerReport.stillActive ↔
        (compositeConditionMet operator subs = true ∧ wasMet = true)) ∧
      (compositeTriggerStep operator subs wasMet).2 = compositeConditionMet operator subs) ∧
    (∀ (subs : List (TechCondition × TechObservation)),
      compositeConditionMet CompositeOperator.AND subs =
        (subs.map fun sc => subConditionMet sc.1 sc.2).all (fun r => r) ∧
      compositeConditionMet CompositeOperator.OR subs =
        (subs.map fun sc => subConditionMet sc.1 sc.2).any (fun r => r)) := by
  refine ⟨?_, ?_, ?_, ?_⟩
  · intro condition obs wasMet
    cases hmet : technicalConditionMet condition obs <;> cases wasMet <;>
      simp [technicalTriggerStep, hmet]
  · intro condition o₁ o₂ wasMet h₁ h₂
    cases wasMet <;> simp [technicalTriggerStep, h₁, h₂]
  · intro operator subs wasMet
    cases hmet : compositeConditionMet operator subs <;> cases wasMet <;>
      simp [compositeTriggerStep, hmet]
  · intro subs
    exact ⟨rfl, rfl⟩

/-- Witness for C2: an RSI-style above-50 condition that is met on two
consecutive evaluations fires on the first and only reports still_active
on the second. -/
theorem technicalTrigger_spec_witness :
    (technicalConditionMet (TechCondition.above 50) (TechObservation.value 60) = true ∧
      technicalConditionMet (TechCondition.above 50) (TechObservation.value 70) = true) ∧
    (technicalTriggerStep (TechCondition.above 50) (TechObservation.value 70)
      (technicalTriggerStep (TechCondition.above 50) (TechObservation.value 60) false).2).1 =
      TriggerReport.stillActive :=
  ⟨⟨by norm_num [technicalConditionMet, toPrecision, scaledRound, compareFloats],
    by norm_num [technicalConditionMet, toPrecision, scaledRound, compareFloats]⟩,
   technicalTrigger_spec.2.1 (TechCondition.above 50) (TechObservation.value 60)
     (TechObservation.value 70) false
     (by norm_num [technicalConditionMet, toPrecision, scaledRound, compareFloats])
     (by norm_num [technicalConditionMet, toPrecision, scaledRound, compareFloats])⟩

/-- A positive lot-rounded size is at least one lot unit. -/
theorem toFixed_pos_lb (x : ℚ) (d : ℕ) (h : 0 < toFixed x d) :
    1 / 10 ^ d ≤ toFixed x d := by
  have hp : (0 : ℚ) < 10 ^ d := by positivity
  rw [toFixed, scaledRound] at h ⊢
  rw [lt_div_iff hp, zero_mul] at h
  have h0 : 0 < round (x * 10 ^ d) := by exact_mod_cast h
  have h2 : (1 : ℚ) ≤ ((round (x * 10 ^ d) : ℤ) : ℚ) := by exact_mod_cast h0
  exact (div_le_div_right hp).mpr h2

/-- A nonnegative quantity whose lot rounding is non-positive is below half
a lot unit. -/
theorem toFixed_nonpos_ub (x : ℚ) (d : ℕ) (_hx : 0 ≤ x) (h : toFixed x d ≤ 0) :
    x < 1 / (2 * 10 ^ d) := by
  have hp : (0 : ℚ) < 10 ^ d := by positivity
  rw [toFixed, scaledRound] at h
  have hr : ((round (x * 10 ^ d) : ℤ) : ℚ) ≤ 0 := by
    rcases div_nonpos_iff.mp h with ⟨h1, h2⟩ | ⟨h1, h2⟩
    · exact absurd h2 (not_le.mpr hp)
    · exact h1
  have hrz : round (x * 10 ^ d) ≤ 0 := by exact_mod_cast hr
  have hy : x * 10 ^ d < 1 / 2 := by
    by_contra hc
    push_neg at hc
    have h1 : (1 : ℤ) ≤ round (x * 10 ^ d) := by
      rw [round_eq, Int.le_floor]
      push_cast
      linarith
    omega
  rw [lt_div_iff (by positivity)]
  have hgoal : x * (2 * 10 ^ d) = 2 * (x * 10 ^ d) := by ring
  rw [hgoal]
  linarith

/-- The margin requirement is the notional times `1/lev + takerFeeRate`. -/
theorem requiredMargin_eq (t l m s : ℚ) (hl : l ≠ 0) :
    requiredMargin t l m s = s * m * (1 / l + t) := by
  unfold requiredMargin
  field_simp
  ring

/-- C6: reduce-only market orders skip the balance and margin checks
entirely; for other orders the fee-aware maximum derives from
`maxNotional = availableBalance / (1/leverage + takerFeeRate)`; a request
above the maximum is clamped to it and placed flagged as adjusted (not
rejected) whenever the clamped size passes the margin check; and the
outcome is an itemized insufficient-balance failure exactly when the
required margin plus the estimated taker fee of the checked size exceeds
the available balance. -/
theorem placeMarketOrder_spec :
    (∀ (coinInfo : CoinInfo) (t lev balRaw mid szReq : ℚ),
      0 < toFixed szReq coinInfo.szDecimals → mid ≠ 0 →
      placeMarketOrderCheck coinInfo t lev balRaw mid szReq true =
        MarketOrderOutcome.placed (toFixed szReq coinInfo.szDecimals) false) ∧
    (∀ (d : ℕ) (t l bal mid : ℚ), 0 < 1 / l + t →
      marketMaxSize d t l bal mid =
        toFixed (max 0 (bal / (1 / l + t) / mid)) d) ∧
    (∀ (coinInfo : CoinInfo) (t lev balRaw mid szReq M : ℚ),
      0 < toFixed szReq coinInfo.szDecimals → mid ≠ 0 →
      0 < min lev (coinInfo.maxLeverage : ℚ) →
      M = marketMaxSize coinInfo.szDecimals t (min lev (coinInfo.maxLeverage : ℚ))
        (max 0 balRaw) mid →
      M < toFixed szReq coinInfo.szDecimals → 0 < M →
      requiredMargin t (min lev (coinInfo.maxLeverage : ℚ)) mid M ≤ max 0 balRaw →
      placeMarketOrderCheck coinInfo t lev balRaw mid szReq false =
        MarketOrderOutcome.placed M true) ∧
    (∀ (coinInfo : CoinInfo) (t lev balRaw mid szReq size l bal M : ℚ),
      size = toFixed szReq coinInfo.szDecimals →
      l = min lev (coinInfo.maxLeverage : ℚ) →
      bal = max 0 balRaw →
      M = marketMaxSize coinInfo.szDecimals t l bal mid →
      0 < size → 0 < mid → 0 < l → 0 ≤ t →
      (isInsufficientOutcome
          (placeMarketOrderCheck coinInfo t lev balRaw mid szReq false) = true ↔
        bal < requiredMargin t l mid (if 0 < M ∧ M < size then M else size))) := by
  refine ⟨?_, ?_, ?_, ?_⟩
  · intro coinInfo t lev balRaw mid szReq hsz hmid
    simp [placeMarketOrderCheck, not_le.mpr hsz, hmid]
  · intro d t l bal mid hdenom
    have hdenom2 : 0 < l⁻¹ + t := by rwa [one_div] at hdenom
    simp [marketMaxSize, hdenom, hdenom2]
  · intro coinInfo t lev balRaw mid szReq M hsz hmid hlev hM hMlt hMpos hmargin
    subst hM
    simp [placeMarketOrderCheck, not_le.mpr hsz, hmid, not_le.mpr hlev, hMlt,
      not_le.mpr hMpos, not_lt.mpr hmargin]
  · intro coinInfo t lev balRaw mid szReq size l bal M hsizeq hleq hbaleq hMeq
      hsize hmid hlev ht
    have hmid0 : mid ≠ 0 := hmid.ne'
    have hbal0 : 0 ≤ bal := hbaleq ▸ le_max_left 0 balRaw
    by_cases hMlt : M < size
    · by_cases hM0 : M ≤ 0
      · have hcheck : (if 0 < M ∧ M < size then M else size) = size :=
          if_neg (fun hc => absurd hc.1 (not_lt.mpr hM0))
        rw [hcheck]
        refine iff_of_true ?_ ?_
        · subst hsizeq hleq hbaleq
          rw [hMeq] at hMlt hM0
          simp [placeMarketOrderCheck, not_le.mpr hsize, hmid0, not_le.mpr hlev,
            hMlt, hM0, isInsufficientOutcome]
        · -- the clamp ceiling is non-positive only when the balance cannot
          -- fund even one lot unit, so the margin check also fails
          have hdenom : 0 < 1 / l + t := by
            have : 0 < 1 / l := by positivity
            linarith
          have hMval : M = toFixed (max 0 (bal / (1 / l + t) / mid)) coinInfo.szDecimals := by
            rw [hMeq]
            have hdenom2 : 0 < l⁻¹ + t := by rwa [one_div] at hdenom
            simp [marketMaxSize, hdenom, hdenom2]
          have hraw0 : 0 ≤ bal / (1 / l + t) / mid := by positivity
          have hmax : max 0 (bal / (1 / l + t) / mid) = bal / (1 / l + t) / mid :=
            max_eq_right hraw0
          rw [hmax] at hMval
          have hrawub : bal / (1 / l + t) / mid < 1 / (2 * 10 ^ coinInfo.szDecimals) :=
            toFixed_nonpos_ub _ _ hraw0 (hMval ▸ hM0)
          have hsizelb : 1 / 10 ^ coinInfo.szDecimals ≤ size := hsizeq ▸ toFixed_pos_lb _ _
            (hsizeq ▸ hsize)
          have hbalval : bal = (bal / (1 / l + t) / mid) * ((1 / l + t) * mid) := by
            field_simp
          have hdm : (0 : ℚ) < (1 / l + t) * mid := by positivity
          have h1 : (bal / (1 / l + t) / mid) * ((1 / l + t) * mid) <
              (1 / (2 * 10 ^ coinInfo.szDecimals)) * ((1 / l + t) * mid) :=
            mul_lt_mul_of_pos_right hrawub hdm
          have hchalf : (1 : ℚ) / (2 * 10 ^ coinInfo.szDecimals) <
              1 / 10 ^ coinInfo.szDecimals := by
            have hp : (0 : ℚ) < 10 ^ coinInfo.szDecimals := by positivity
            rw [div_lt_div_iff (by positivity) hp]
            nlinarith
          have h2 : (1 / (2 * 10 ^ coinInfo.szDecimals)) * ((1 / l + t) * mid) <
              size * ((1 / l + t) * mid) :=
            mul_lt_mul_of_pos_right (lt_of_lt_of_le hchalf hsizelb) hdm
          have hreq : requiredMargin t l mid size = size * ((1 / l + t) * mid) := by
            rw [requiredMargin_eq t l mid size hlev.ne']
            ring
          rw [hreq]
          calc bal = (bal / (1 / l + t) / mid) * ((1 / l + t) * mid) := hbalval
            _ < (1 / (2 * 10 ^ coinInfo.szDecimals)) * ((1 / l + t) * mid) := h1
            _ < size * ((1 / l + t) * mid) := h2
      · have hMpos : 0 < M := not_le.mp hM0
        have hcheck : (if 0 < M ∧ M < size then M else size) = M := if_pos ⟨hMpos, hMlt⟩
        rw [hcheck]
        by_cases hmar : bal < requiredMargin t l mid M
        · refine iff_of_true ?_ hmar
          subst hsizeq hleq hbaleq
          rw [hMeq] at hMlt hM0 hmar
          simp [placeMarketOrderCheck, not_le.mpr hsize, hmid0, not_le.mpr hlev,
            hMlt, hM0, hmar, isInsufficientOutcome]
        · refine iff_of_false ?_ hmar
          subst hsizeq hleq hbaleq
          rw [hMeq] at hMlt hM0 hmar
          simp [placeMarketOrderCheck, not_le.mpr hsize, hmid0, not_le.mpr hlev,
            hMlt, hM0, hmar, isInsufficientOutcome]
    · have hcheck : (if 0 < M ∧ M < size then M else size) = size :=
        if_neg (fun hc => hMlt hc.2)
      rw [hcheck]
      by_cases hmar : bal < requiredMargin t l mid size
      · refine iff_of_true ?_ hmar
        subst hsizeq hleq hbaleq
        rw [hMeq] at hMlt
        simp [placeMarketOrderCheck, not_le.mpr hsize, hmid0, not_le.mpr hlev,
          hMlt, hmar, isInsufficientOutcome]
      · refine iff_of_false ?_ hmar
        subst hsizeq hleq hbaleq
        rw [hMeq] at hMlt
        simp [placeMarketOrderCheck, not_le.mpr hsize, hmid0, not_le.mpr hlev,
          hMlt, hmar, isInsufficientOutcome]

/-- Witness for C6: the spec scenario — a request of size 0.002 at mid
price 25000 with balance 37.5 at leverage 1 and zero fee rate supports only
0.0015, so the layer places 0.0015 flagged as adjusted instead of
rejecting; a reduce-only request of the same size needs no balance. -/
theorem placeMarketOrder_spec_witness :
    (placeMarketOrderCheck ⟨4, 20⟩ 0 1 0 25000 (2 / 1000) true =
      MarketOrderOutcome.placed (toFixed (2 / 1000) (CoinInfo.szDecimals ⟨4, 20⟩)) false) ∧
    (placeMarketOrderCheck ⟨4, 20⟩ 0 1 (75 / 2) 25000 (2 / 1000) false =
      MarketOrderOutcome.placed (15 / 10000) true) := by
  constructor
  · exact placeMarketOrder_spec.1 ⟨4, 20⟩ 0 1 0 25000 (2 / 1000)
      (by norm_num [toFixed, scaledRound]) (by norm_num)
  · have hM : (15 / 10000 : ℚ) =
        marketMaxSize (CoinInfo.szDecimals ⟨4, 20⟩) 0 (min 1 ((CoinInfo.maxLeverage ⟨4, 20⟩ : ℕ) : ℚ))
          (max 0 (75 / 2)) 25000 := by
      norm_num [marketMaxSize, toFixed, scaledRound]
    exact placeMarketOrder_spec.2.2.1 ⟨4, 20⟩ 0 1 (75 / 2) 25000 (2 / 1000) (15 / 10000)
      (by norm_num [toFixed, scaledRound]) (by norm_num) (by norm_num) hM
      (by norm_num [toFixed, scaledRound]) (by norm_num)
      (by norm_num [requiredMargin])

/-- Rounding is monotone on ℚ. -/
theorem round_le_round_of_le {x y : ℚ} (h : x ≤ y) : round x ≤ round y := by
  rw [round_eq, round_eq]
  exact Int.floor_le_floor (by linarith)

/-- C8: after a non-intentional disconnect, reconnect attempt n is
scheduled after `min(base * 2^(n-1), maxDelay)` plus jitter; once the
consecutive attempt count exceeds the cap the fatal-error callback is
invoked instead of reconnecting; below the cap and with jitter within its
sampled range the scheduled delays are strictly increasing; and on every
reconnect after the first connection the open handler re-sends the
subscribe message of every registered subscription key exactly once from
the in-memory table (after flushing the pending queue). -/
theorem wsReconnect_spec :
    (∀ (base maxD : ℚ) (maxA n : ℕ) (j : ℚ),
      onSocketClose true base maxD maxA n j = CloseAction.ignore) ∧
    (∀ (base maxD : ℚ) (maxA n : ℕ) (j : ℚ), n + 1 ≤ maxA →
      onSocketClose false base maxD maxA n j =
        CloseAction.reconnectAfter (round (min (base * 2 ^ n) maxD + j)) (n + 1)) ∧
    (∀ (base maxD : ℚ) (maxA n : ℕ) (j : ℚ), maxA ≤ n →
      onSocketClose false base maxD maxA n j = CloseAction.fatal (n + 1)) ∧
    (∀ (base maxD : ℚ) (n : ℕ) (j₁ j₂ : ℚ),
      2 ≤ base → 0 ≤ j₁ → j₁ ≤ min (base * 2 ^ n) maxD * (1 / 5) → 0 ≤ j₂ →
      base * 2 ^ (n + 1) ≤ maxD →
      round (min (base * 2 ^ n) maxD + j₁) < round (min (base * 2 ^ (n + 1)) maxD + j₂)) ∧
    (∀ (pendingQueue : List WireMessage) (subscriptions : List Subscription),
      onSocketOpen false pendingQueue subscriptions =
        pendingQueue ++ resubscribeAll subscriptions ∧
      onSocketOpen true pendingQueue subscriptions = pendingQueue) ∧
    (∀ (subscriptions : List Subscription),
      (subscriptions.map makeKey).Nodup →
      ∀ sub ∈ subscriptions,
        (resubscribeAll subscriptions).count
          (buildSubMessage sub.channel sub.params) = 1) := by
  refine ⟨?_, ?_, ?_, ?_, ?_, ?_⟩
  · intro base maxD maxA n j
    simp [onSocketClose]
  · intro base maxD maxA n j h
    have hn : ¬ (maxA < n + 1) := not_lt.mpr h
    simp [onSocketClose, hn]
  · intro base maxD maxA n j h
    have hn : maxA < n + 1 := Nat.lt_succ_of_le h
    simp [onSocketClose, hn]
  · intro base maxD n j₁ j₂ hbase hj₁ hj₁ub hj₂ hcap
    have hexp : base * 2 ^ (n + 1) = 2 * (base * 2 ^ n) := by ring
    have he2 : (2 : ℚ) ≤ base * 2 ^ n := by
      have h1 : (1 : ℚ) ≤ 2 ^ n := one_le_pow₀ (by norm_num)
      nlinarith
    have hle : base * 2 ^ n ≤ maxD := by nlinarith
    have hmin₁ : min (base * 2 ^ n) maxD = base * 2 ^ n := min_eq_left hle
    have hmin₂ : min (base * 2 ^ (n + 1)) maxD = base * 2 ^ (n + 1) := min_eq_left hcap
    rw [hmin₁] at hj₁ub
    rw [hmin₁, hmin₂]
    have hkey : base * 2 ^ n + j₁ + 1 ≤ base * 2 ^ (n + 1) + j₂ := by
      rw [hexp]
      linarith
    calc round (base * 2 ^ n + j₁) < round (base * 2 ^ n + j₁) + 1 := lt_add_one _
      _ = round (base * 2 ^ n + j₁ + 1) := (round_add_one _).symm
      _ ≤ round (base * 2 ^ (n + 1) + j₂) := round_le_round_of_le hkey
  · intro pendingQueue subscriptions
    constructor <;> simp [onSocketOpen]
  · intro subscriptions hnodup sub hsub
    have hinj : Function.Injective
        (fun s : Subscription => buildSubMessage s.channel s.params) := by
      intro a b hab
      simp only [buildSubMessage, WireMessage.mk.injEq, true_and] at hab
      cases a
      cases b
      simp only [Subscription.mk.injEq]
      exact ⟨hab.1, hab.2⟩
    have hcount := List.count_map_of_injective subscriptions
      (fun s : Subscription => buildSubMessage s.channel s.params) hinj sub
    have hnodup2 : subscriptions.Nodup := List.Nodup.of_map makeKey hnodup
    calc (resubscribeAll subscriptions).count (buildSubMessage sub.channel sub.params)
        = subscriptions.count sub := hcount
      _ = 1 := List.count_eq_one_of_mem hnodup2 hsub

/-- Witness for C8: with base 5000 ms and cap 60000 ms, the first three
reconnect attempts are scheduled after strictly increasing delays
(5000, 10000, 20000 with zero jitter), attempt 51 of 50 is fatal, and the
registered allMids and BTC-trades keys are each resubscribed once. -/
theorem wsReconnect_spec_witness :
    ((0 : ℕ) + 1 ≤ 50 ∧
      onSocketClose false 5000 60000 50 0 0 =
        CloseAction.reconnectAfter (round ((min (5000 * 2 ^ 0) 60000 : ℚ) + 0)) (0 + 1)) ∧
    (round ((min ((5000 : ℚ) * 2 ^ 0) 60000 : ℚ) + 0) <
      round ((min ((5000 : ℚ) * 2 ^ (0 + 1)) 60000 : ℚ) + 0)) ∧
    (round ((min ((5000 : ℚ) * 2 ^ 1) 60000 : ℚ) + 0) <
      round ((min ((5000 : ℚ) * 2 ^ (1 + 1)) 60000 : ℚ) + 0)) ∧
    (onSocketClose false 5000 60000 50 50 0 = CloseAction.fatal (50 + 1)) ∧
    ((resubscribeAll [⟨"allMids", []⟩, ⟨"trades", [("coin", "BTC")]⟩]).count
        (buildSubMessage "allMids" []) = 1 ∧
      (resubscribeAll [⟨"allMids", []⟩, ⟨"trades", [("coin", "BTC")]⟩]).count
        (buildSubMessage "trades" [("coin", "BTC")]) = 1) :=
  ⟨⟨by norm_num,
    wsReconnect_spec.2.1 5000 60000 50 0 0 (by norm_num)⟩,
   wsReconnect_spec.2.2.2.1 5000 60000 0 0 0 (by norm_num) le_rfl
     (by norm_num) le_rfl (by norm_num),
   wsReconnect_spec.2.2.2.1 5000 60000 1 0 0 (by norm_num) le_rfl
     (by norm_num) le_rfl (by norm_num),
   wsReconnect_spec.2.2.1 5000 60000 50 50 0 le_rfl,
   ⟨wsReconnect_spec.2.2.2.2.2 [⟨"allMids", []⟩, ⟨"trades", [("coin", "BTC")]⟩]
      (by decide) ⟨"allMids", []⟩ (by simp),
    wsReconnect_spec.2.2.2.2.2 [⟨"allMids", []⟩, ⟨"trades", [("coin", "BTC")]⟩]
      (by decide) ⟨"trades", [("coin", "BTC")]⟩ (by simp)⟩⟩

/-- `roundPrice` in the non-trivial branch, with the significant-figure
exponent normalised to `4 - magnitude`. -/
theorem roundPrice_eq_main (p : ℚ) (info : CoinInfo) (hp : p ≠ 0) (hden : p.den ≠ 1) :
    roundPrice p info =
      ((round ((((round (p * 10 ^ ((4 : ℤ) - Int.log 10 |p|)) : ℤ) : ℚ) /
            10 ^ ((4 : ℤ) - Int.log 10 |p|)) *
          10 ^ (max 0 (6 - (info.szDecimals : ℤ)))) : ℤ) : ℚ) /
        10 ^ (max 0 (6 - (info.szDecimals : ℤ))) := by
  simp only [roundPrice, if_neg hp, if_neg hden]
  norm_num

/-- If `q * 10^e` is an integer then so is `q * 10^k` for every `k ≥ e`. -/
theorem int_mul_zpow_mono {q : ℚ} {e k : ℤ} (h : ∃ n : ℤ, q * 10 ^ e = n)
    (hek : e ≤ k) : ∃ n : ℤ, q * 10 ^ k = n := by
  obtain ⟨n, hn⟩ := h
  obtain ⟨d, rfl⟩ : ∃ d : ℕ, k = e + (d : ℤ) := ⟨(k - e).toNat, by omega⟩
  refine ⟨n * 10 ^ d, ?_⟩
  have hsplit : q * 10 ^ (e + (d : ℤ)) = q * 10 ^ e * 10 ^ (d : ℤ) := by
    rw [zpow_add₀ (by norm_num : (10 : ℚ) ≠ 0)]
    ring
  rw [hsplit, hn]
  push_cast
  rw [zpow_natCast]

/-- Rounding at a scale fixes every value already on that scale. -/
theorem scaledRound_int_fixed {x s : ℚ} (hs : s ≠ 0) (h : ∃ n : ℤ, x * s = n) :
    ((round (x * s) : ℤ) : ℚ) / s = x := by
  obtain ⟨n, hn⟩ := h
  rw [hn, round_intCast, div_eq_iff hs]
  exact hn.symm

/-- The decimal magnitude is determined by its bracketing powers of ten. -/
theorem int_log_eq_of_bounds {r : ℚ} (hr : 0 < r) {z : ℤ}
    (h1 : (10 : ℚ) ^ z ≤ r) (h2 : r < (10 : ℚ) ^ (z + 1)) : Int.log 10 r = z := by
  have hlb := (@Int.zpow_le_iff_le_log ℚ _ _ 10 (by norm_num) z r hr).mp (by exact_mod_cast h1)
  have hub := (@Int.lt_zpow_iff_log_lt ℚ _ _ 10 (by norm_num) (z + 1) r hr).mp
    (by exact_mod_cast h2)
  omega

/-- The 5-significant-figure step keeps the decimal magnitude of its input
(up to landing exactly on the next power of ten) and lands on the
`10^(4-m)` grid. -/
theorem roundPrice_sigfig_bounds (p : ℚ) (hp : p ≠ 0) (m : ℤ) (hm : m = Int.log 10 |p|)
    (r : ℚ)
    (hr : r = ((round (p * 10 ^ ((4 : ℤ) - m)) : ℤ) : ℚ) / 10 ^ ((4 : ℤ) - m)) :
    (∃ n : ℤ, r * 10 ^ ((4 : ℤ) - m) = n) ∧
    (10 : ℚ) ^ m ≤ |r| ∧ |r| ≤ 10 ^ (m + 1) := by
  have habs : 0 < |p| := abs_pos.mpr hp
  have hs : (0 : ℚ) < 10 ^ ((4 : ℤ) - m) := zpow_pos (by norm_num) _
  have hlb : (10 : ℚ) ^ m ≤ |p| := hm ▸ Int.zpow_log_le_self (by norm_num) habs
  have hub : |p| < 10 ^ (m + 1) := hm ▸ Int.lt_zpow_succ_log_self (by norm_num) |p|
  set s : ℚ := 10 ^ ((4 : ℤ) - m) with hsdef
  set y : ℚ := p * s with hydef
  have hys : |y| = |p| * s := by rw [hydef, abs_mul, abs_of_pos hs]
  have hprod1 : (10 : ℚ) ^ m * s = 10000 := by
    rw [hsdef, ← zpow_add₀ (by norm_num : (10 : ℚ) ≠ 0)]
    rw [show m + ((4 : ℤ) - m) = 4 from by ring]
    norm_num
  have hprod2 : (10 : ℚ) ^ (m + 1) * s = 100000 := by
    rw [hsdef, ← zpow_add₀ (by norm_num : (10 : ℚ) ≠ 0)]
    rw [show m + 1 + ((4 : ℤ) - m) = 5 from by ring]
    norm_num
  have hylb : (10000 : ℚ) ≤ |y| := by
    rw [hys, ← hprod1]
    exact mul_le_mul_of_nonneg_right hlb hs.le
  have hyub : |y| < 100000 := by
    rw [hys, ← hprod2]
    exact mul_lt_mul_of_pos_right hub hs
  have hry := abs_sub_round y
  have h1 : (10000 : ℚ) - 1 / 2 ≤ |((round y : ℤ) : ℚ)| := by
    have h := abs_sub_abs_le_abs_sub y ((round y : ℤ) : ℚ)
    push_cast at h
    linarith
  have h2 : |((round y : ℤ) : ℚ)| < 100000 + 1 / 2 := by
    have h := abs_sub_abs_le_abs_sub ((round y : ℤ) : ℚ) y
    rw [abs_sub_comm] at h
    linarith
  have hN1 : (10000 : ℤ) ≤ |round y| := by
    by_contra hc
    push_neg at hc
    have h3 : ((|round y| : ℤ) : ℚ) ≤ 9999 := by
      exact_mod_cast (by omega : |round y| ≤ (9999 : ℤ))
    rw [Int.cast_abs] at h3
    linarith
  have hN2 : |round y| ≤ (100000 : ℤ) := by
    by_contra hc
    push_neg at hc
    have h3 : (100001 : ℚ) ≤ ((|round y| : ℤ) : ℚ) := by
      exact_mod_cast (by omega : (100001 : ℤ) ≤ |round y|)
    rw [Int.cast_abs] at h3
    linarith
  have hrabs : |r| = ((|round y| : ℤ) : ℚ) / s := by
    rw [hr, abs_div, abs_of_pos hs, Int.cast_abs]
  refine ⟨⟨round y, by rw [hr]; exact div_mul_cancel₀ _ hs.ne'⟩, ?_, ?_⟩
  · rw [hrabs]
    have hm' : (10 : ℚ) ^ m = 10000 / s := by
      rw [eq_div_iff hs.ne']
      exact hprod1
    rw [hm']
    apply (div_le_div_right hs).mpr
    exact_mod_cast hN1
  · rw [hrabs]
    have hm2 : (10 : ℚ) ^ (m + 1) = 100000 / s := by
      rw [eq_div_iff hs.ne']
      exact hprod2
    rw [hm2]
    apply (div_le_div_right hs).mpr
    exact_mod_cast hN2

/-- Tick-rule lemma for C7: every output of `roundPrice` is an integer, or
lies simultaneously on the 5-significant-figure grid of its own magnitude
and on the coin's decimal grid. -/
theorem roundPrice_tick (p : ℚ) (info : CoinInfo) :
    (roundPrice p info).den = 1 ∨
    ((∃ n : ℤ, roundPrice p info * 10 ^ ((4 : ℤ) - Int.log 10 |roundPrice p info|) = n) ∧
     (∃ n : ℤ, roundPrice p info * 10 ^ (max 0 (6 - (info.szDecimals : ℤ))) = n)) := by
  by_cases hp : p = 0
  · left
    simp [roundPrice, hp]
  by_cases hden : p.den = 1
  · left
    simp [roundPrice, hp, hden]
  set m := Int.log 10 |p| with hmdef
  set D := max 0 (6 - (info.szDecimals : ℤ)) with hDdef
  have hmain := roundPrice_eq_main p info hp hden
  set r : ℚ := ((round (p * 10 ^ ((4 : ℤ) - m)) : ℤ) : ℚ) / 10 ^ ((4 : ℤ) - m) with hrdef
  obtain ⟨hrint, hrlb, hrub⟩ := roundPrice_sigfig_bounds p hp m hmdef r hrdef
  have hds : (0 : ℚ) < 10 ^ D := zpow_pos (by norm_num) _
  have hq : roundPrice p info = ((round (r * 10 ^ D) : ℤ) : ℚ) / 10 ^ D := hmain
  set q : ℚ := roundPrice p info with hqdef
  have hqds : ∃ n : ℤ, q * 10 ^ D = n :=
    ⟨round (r * 10 ^ D), by rw [hq]; exact div_mul_cancel₀ _ hds.ne'⟩
  by_cases hqden : q.den = 1
  · left
    exact hqden
  right
  refine ⟨?_, hqds⟩
  have hq0 : q ≠ 0 := by
    intro hc
    rw [hc] at hqden
    exact hqden rfl
  have hqabs : 0 < |q| := abs_pos.mpr hq0
  rcases le_or_lt ((4 : ℤ) - m) D with hcase | hcase
  · -- the decimal grid is finer than the significant-figure grid: the
    -- second rounding is the identity
    have hrds : ∃ n : ℤ, r * 10 ^ D = n := int_mul_zpow_mono hrint hcase
    have hqr : q = r := by
      rw [hq]
      exact scaledRound_int_fixed hds.ne' hrds
    rcases lt_or_eq_of_le hrub with hlt | heq
    · have hm' : Int.log 10 |q| = m :=
        int_log_eq_of_bounds hqabs (by rw [hqr]; exact hrlb) (by rw [hqr]; exact hlt)
      rw [hm', hqr]
      exact hrint
    · have habsq : |q| = 10 ^ (m + 1) := by
        rw [hqr]
        exact heq
      have hm' : Int.log 10 |q| = m + 1 := by
        have hlz := @Int.log_zpow ℚ _ _ 10 (by norm_num) (m + 1)
        rw [habsq]
        exact_mod_cast hlz
      rw [hm']
      rcases (abs_eq (zpow_pos (by norm_num : (0:ℚ) < 10) (m + 1)).le).mp habsq with hqv | hqv
      · refine ⟨10000, ?_⟩
        rw [hqv, ← zpow_add₀ (by norm_num : (10 : ℚ) ≠ 0),
          show m + 1 + ((4 : ℤ) - (m + 1)) = 4 from by ring]
        norm_num
      · refine ⟨-10000, ?_⟩
        rw [hqv, neg_mul, ← zpow_add₀ (by norm_num : (10 : ℚ) ≠ 0),
          show m + 1 + ((4 : ℤ) - (m + 1)) = 4 from by ring]
        norm_num
  · -- the decimal grid is coarser: the output magnitude stays below 5 - D
    have hqmul : q * 10 ^ D = ((round (r * 10 ^ D) : ℤ) : ℚ) := by
      rw [hq]
      exact div_mul_cancel₀ _ hds.ne'
    have hqr2 : |q - r| ≤ 1 / 2 / 10 ^ D := by
      have h := abs_sub_round (r * 10 ^ D)
      have h3 : |q - r| * 10 ^ D = |q * 10 ^ D - r * 10 ^ D| := by
        rw [← sub_mul, abs_mul, abs_of_pos hds]
      rw [le_div_iff hds, h3, hqmul, abs_sub_comm]
      exact h
    have hm1 : m + 1 ≤ 4 - D := by omega
    have h10 : (10 : ℚ) ^ (m + 1) ≤ 10 ^ ((4 : ℤ) - D) :=
      zpow_le_zpow_right₀ (by norm_num) hm1
    set A : ℚ := 10 ^ ((4 : ℤ) - D) with hAdef
    have hA : 0 < A := zpow_pos (by norm_num) _
    have hAds : A * 10 ^ D = 10000 := by
      rw [hAdef, ← zpow_add₀ (by norm_num : (10 : ℚ) ≠ 0),
        show (4 : ℤ) - D + D = 4 from by ring]
      norm_num
    have hhalf : 1 / 2 / 10 ^ D = A / 20000 := by
      rw [div_eq_div_iff hds.ne' (by norm_num : (20000 : ℚ) ≠ 0)]
      linarith
    have htri : |q| ≤ |r| + |q - r| := by
      calc |q| = |r + (q - r)| := by ring_nf
        _ ≤ |r| + |q - r| := abs_add _ _
    have hq5 : |q| < 10 ^ ((5 : ℤ) - D) := by
      have h5A : (10 : ℚ) ^ ((5 : ℤ) - D) = 10 * A := by
        rw [hAdef, show (5 : ℤ) - D = 1 + ((4 : ℤ) - D) from by ring,
          zpow_add₀ (by norm_num : (10 : ℚ) ≠ 0), zpow_one]
      rw [h5A]
      rw [hhalf] at hqr2
      linarith
    have hm' : Int.log 10 |q| < (5 : ℤ) - D :=
      (@Int.lt_zpow_iff_log_lt ℚ _ _ 10 (by norm_num) ((5 : ℤ) - D) |q| hqabs).mp
        (by exact_mod_cast hq5)
    exact int_mul_zpow_mono hqds (by omega)

/-- Idempotence lemma for C7: rounding an already-rounded order price is
the identity. -/
theorem roundPrice_idem (p : ℚ) (info : CoinInfo) :
    roundPrice (roundPrice p info) info = roundPrice p info := by
  set q := roundPrice p info with hqdef
  by_cases hq0 : q = 0
  · rw [hq0]
    simp [roundPrice]
  by_cases hden : q.den = 1
  · simp [roundPrice, hq0, hden]
  rcases roundPrice_tick p info with h | ⟨h1, h2⟩
  · exact absurd h hden
  · have hmain := roundPrice_eq_main q info hq0 hden
    have hs : (0 : ℚ) < 10 ^ ((4 : ℤ) - Int.log 10 |q|) := zpow_pos (by norm_num) _
    have hds : (0 : ℚ) < 10 ^ (max 0 (6 - (info.szDecimals : ℤ))) := zpow_pos (by norm_num) _
    have hstep1 : ((round (q * 10 ^ ((4 : ℤ) - Int.log 10 |q|)) : ℤ) : ℚ) /
        10 ^ ((4 : ℤ) - Int.log 10 |q|) = q :=
      scaledRound_int_fixed hs.ne' h1
    rw [hmain, hstep1]
    exact scaledRound_int_fixed hds.ne' h2

/-- C7 (amended): order-price rounding leaves integer prices unchanged, is
idempotent, and constrains every output to at most 5 significant figures
together with a lot-precision-dependent maximum decimal count
`max(0, 6 - szDecimals)` — a function of the coin's size precision, not of
its leverage: two coins with the same `szDecimals` round identically
whatever their leverage. -/
theorem roundPrice_spec :
    (∀ (p : ℚ) (info : CoinInfo), p.den = 1 → roundPrice p info = p) ∧
    (∀ (p : ℚ) (info : CoinInfo),
      roundPrice (roundPrice p info) info = roundPrice p info) ∧
    (∀ (p : ℚ) (info : CoinInfo), (roundPrice p info).den = 1 ∨
      ((∃ n : ℤ, roundPrice p info * 10 ^ ((4 : ℤ) - Int.log 10 |roundPrice p info|) = n) ∧
       (∃ n : ℤ, roundPrice p info * 10 ^ (max 0 (6 - (info.szDecimals : ℤ))) = n))) ∧
    (∀ (p : ℚ) (info₁ info₂ : CoinInfo), info₁.szDecimals = info₂.szDecimals →
      roundPrice p info₁ = roundPrice p info₂) := by
  refine ⟨?_, roundPrice_idem, roundPrice_tick, ?_⟩
  · intro p info h
    by_cases hp : p = 0
    · rw [hp]
      simp [roundPrice]
    · simp [roundPrice, hp, h]
  · intro p info₁ info₂ h
    cases info₁
    cases info₂
    simp only at h
    subst h
    rfl

/-- Counterexample to C7 as stated: two coins with the same maximum
leverage (20x) but different lot precisions round the price 0.1234567
differently, so the maximum decimal count enforced by `_roundPrice` is a
function of the coin's `szDecimals` (the rule is `max(0, 6 - szDecimals)`),
not of its leverage — leverage is never read by the function. -/
theorem roundPrice_not_leverage_dependent :
    roundPrice (1234567 / 10000000) ⟨4, 20⟩ ≠ roundPrice (1234567 / 10000000) ⟨0, 20⟩ := by
  have hp : (1234567 / 10000000 : ℚ) ≠ 0 := by norm_num
  have hden : (1234567 / 10000000 : ℚ).den ≠ 1 := by
    intro h
    have hx : (((1234567 / 10000000 : ℚ).num : ℚ)) = 1234567 / 10000000 :=
      Rat.coe_int_num_of_den_eq_one h
    have hmul : ((1234567 / 10000000 : ℚ).num : ℚ) * 10000000 = 1234567 := by
      rw [hx]
      norm_num
    have hz : (1234567 / 10000000 : ℚ).num * 10000000 = 1234567 := by exact_mod_cast hmul
    omega
  have hlog : Int.log 10 |(1234567 / 10000000 : ℚ)| = -1 := by
    rw [abs_of_pos (by norm_num : (0 : ℚ) < 1234567 / 10000000)]
    refine int_log_eq_of_bounds (by norm_num) ?_ ?_
    · rw [zpow_neg, zpow_one]
      norm_num
    · norm_num
  rw [roundPrice_eq_main _ ⟨4, 20⟩ hp hden, roundPrice_eq_main _ ⟨0, 20⟩ hp hden, hlog]
  norm_num [round_eq]

/-- Witness for C7 (amended): the integer price 5 rounds to itself, and two
coins with equal lot precision but different leverage round the same price
identically. -/
theorem roundPrice_spec_witness :
    ((5 : ℚ).den = 1 ∧ roundPrice 5 ⟨4, 20⟩ = 5) ∧
    (CoinInfo.szDecimals ⟨4, 20⟩ = CoinInfo.szDecimals ⟨4, 50⟩ ∧
      roundPrice (1234567 / 10000000) ⟨4, 20⟩ = roundPrice (1234567 / 10000000) ⟨4, 50⟩) :=
  ⟨⟨rfl, roundPrice_spec.1 5 ⟨4, 20⟩ rfl⟩,
   ⟨rfl, roundPrice_spec.2.2.2 (1234567 / 10000000) ⟨4, 20⟩ ⟨4, 50⟩ rfl⟩⟩

end AiEngine
